import Mathlib

/-!
# MEGA SDK: transaction committer, root nodes and node manager

Shallow embedding of `include/mega/db.h` (`DbTable`, `DBTableTransactionCommitter`) and of
`NodeManager::Rootnodes` from `include/mega/nodemanager.h`, whose code is in the headers.
The other `NodeManager` operations are only declared in the header; they are modelled from
the specification, each such definition saying so. The definitions come first, the
properties proved about them follow.
-/

namespace Mega

/-! ## `include/mega/db.h` -/

/-- The three transaction-control virtual calls of `DbTable`
(`begin()`, `commit()`, `abort()`, db.h lines 95-102). -/
inductive TableCall
  | begin
  | commit
  | abort
deriving DecidableEq, Repr

/-- The part of `DbTable` the committer can touch.
`mTransactionCommitter` is the `DBTableTransactionCommitter*` slot (db.h line 45):
`none` is `nullptr`, `some a` is the address `a` of a committer object.
`calls` records, oldest first, the `begin`/`commit`/`abort` calls the table received. -/
structure DbTable where
  mTransactionCommitter : Option Nat
  calls : List TableCall
deriving DecidableEq, Repr

/-- Effect of the virtual call `DbTable::begin()` on the recorded trace. -/
def DbTable.begin (t : DbTable) : DbTable :=
  { t with calls := t.calls ++ [TableCall.begin] }

/-- Effect of the virtual call `DbTable::commit()` on the recorded trace. -/
def DbTable.commit (t : DbTable) : DbTable :=
  { t with calls := t.calls ++ [TableCall.commit] }

/-- Effect of the virtual call `DbTable::abort()` on the recorded trace. -/
def DbTable.abort (t : DbTable) : DbTable :=
  { t with calls := t.calls ++ [TableCall.abort] }

/-- The fields of `DBTableTransactionCommitter` (db.h lines 122-123).
There is one table in the model, so the pointer `mTable` is either that table
(`true`) or `nullptr` (`false`). -/
structure DBTableTransactionCommitter where
  mTable : Bool
  mStarted : Bool
deriving DecidableEq, Repr

namespace DBTableTransactionCommitter

/-- `beginOnce()` (db.h lines 126-133). -/
def beginOnce (c : DBTableTransactionCommitter) (t : DbTable) :
    DBTableTransactionCommitter × DbTable :=
  if c.mTable && !c.mStarted then
    ({ c with mStarted := true }, t.begin)
  else
    (c, t)

/-- `commitNow()` (db.h lines 135-145). -/
def commitNow (c : DBTableTransactionCommitter) (t : DbTable) :
    DBTableTransactionCommitter × DbTable :=
  if c.mTable then
    if c.mStarted then
      ({ c with mStarted := false }, t.commit)
    else
      (c, t)
  else
    (c, t)

/-- `reset()` (db.h lines 147-150). -/
def reset (c : DBTableTransactionCommitter) : DBTableTransactionCommitter :=
  { c with mTable := false }

/-- The destructor (db.h lines 152-159); the object is gone afterwards, so only
the table is returned. -/
def destroy (c : DBTableTransactionCommitter) (t : DbTable) : DbTable :=
  if c.mTable then
    let r := commitNow c t
    { r.2 with mTransactionCommitter := none }
  else
    t

/-- The constructor (db.h lines 161-175) for an object at address `self`.
`onTable = false` is the call with `t == nullptr`. -/
def construct (self : Nat) (onTable : Bool) (t : DbTable) :
    DBTableTransactionCommitter × DbTable :=
  if onTable then
    if t.mTransactionCommitter.isSome then
      ({ mTable := false, mStarted := false }, t)
    else
      ({ mTable := true, mStarted := false }, { t with mTransactionCommitter := some self })
  else
    ({ mTable := false, mStarted := false }, t)

end DBTableTransactionCommitter

open DBTableTransactionCommitter

/-- A call of one of the three public member functions of a committer. -/
inductive CommitterOp
  | beginOnce
  | commitNow
  | reset
deriving DecidableEq, Repr

/-- One member-function call on a committer, acting on the committer and the table. -/
def applyOp (s : DBTableTransactionCommitter × DbTable) :
    CommitterOp → DBTableTransactionCommitter × DbTable
  | CommitterOp.beginOnce => beginOnce s.1 s.2
  | CommitterOp.commitNow => commitNow s.1 s.2
  | CommitterOp.reset => (reset s.1, s.2)

/-- A sequence of member-function calls, executed left to right. -/
def applyOps (s : DBTableTransactionCommitter × DbTable) (ops : List CommitterOp) :
    DBTableTransactionCommitter × DbTable :=
  ops.foldl applyOp s

/-! ### Several committers on one table -/

/-- The table together with the committer objects currently alive, by address. -/
structure World where
  table : DbTable
  live : Nat → Option DBTableTransactionCommitter

/-- What client code can do with committers on the table. -/
inductive Event
  | construct (self : Nat) (onTable : Bool)
  | beginOnce (self : Nat)
  | commitNow (self : Nat)
  | reset (self : Nat)
  | destroy (self : Nat)
deriving DecidableEq, Repr

/-- One event. `none` when the event is impossible: constructing an object at
an address where one is alive, or using an object that is not alive. -/
def step (w : World) : Event → Option World
  | Event.construct self onTable =>
    match w.live self with
    | some _ => none
    | none =>
      let r := construct self onTable w.table
      some { table := r.2, live := Function.update w.live self (some r.1) }
  | Event.beginOnce self =>
    match w.live self with
    | none => none
    | some c =>
      let r := beginOnce c w.table
      some { table := r.2, live := Function.update w.live self (some r.1) }
  | Event.commitNow self =>
    match w.live self with
    | none => none
    | some c =>
      let r := commitNow c w.table
      some { table := r.2, live := Function.update w.live self (some r.1) }
  | Event.reset self =>
    match w.live self with
    | none => none
    | some c => some { w with live := Function.update w.live self (some (reset c)) }
  | Event.destroy self =>
    match w.live self with
    | none => none
    | some c => some { table := destroy c w.table, live := Function.update w.live self none }

/-- A sequence of events, executed left to right. -/
def run (w : World) : List Event → Option World
  | [] => some w
  | e :: es => (step w e).bind fun w' => run w' es

/-- A freshly opened table: no committer registered, no call made, no object alive. -/
def World.init : World :=
  { table := { mTransactionCommitter := none, calls := [] }, live := fun _ => none }

/-- The trace `begin, commit, begin, commit, ...` of `n` complete transactions. -/
def alternating : Nat → List TableCall
  | 0 => []
  | n + 1 => TableCall.begin :: TableCall.commit :: alternating n

/-- The calls a table received after the moment it had received `before`. -/
def callsSince (before : DbTable) (now : DbTable) : List TableCall :=
  now.calls.drop before.calls.length

/-- The events of a scenario used to try the single-owner invariant: committer 1
registers, committer 2 is nested, 1 is destroyed first, then 3 registers. -/
def ownerScenario : List Event :=
  [Event.construct 1 true, Event.construct 2 true, Event.beginOnce 1, Event.destroy 1,
   Event.construct 3 true, Event.beginOnce 3, Event.reset 2, Event.destroy 2]

/-- The state the scenario `ownerScenario` ends in. -/
def ownerScenarioEnd : World :=
  (run World.init ownerScenario).getD World.init

/-- Whether an event is an explicit `commitNow` call, on any committer. -/
def Event.isCommitNow : Event → Bool
  | Event.commitNow _ => true
  | _ => false

/-- Events after committer 1 registered as the outermost one: committer 2 is nested,
used and destroyed; committer 1 calls `beginOnce` twice. -/
def commitScenario : List Event :=
  [Event.construct 2 true, Event.beginOnce 1, Event.beginOnce 2, Event.commitNow 2,
   Event.destroy 2, Event.beginOnce 1]

/-- The state after committer 1 registered on a fresh table and `commitScenario` ran. -/
def commitScenarioEnd : World :=
  (run World.init (Event.construct 1 true :: commitScenario)).getD World.init

/-- Committer 1 registers as the outermost one on a fresh table, calls `beginOnce`, is
`reset` and is then destroyed; `commitNow` is never called. -/
def resetScenario : List Event :=
  [Event.construct 1 true, Event.beginOnce 1, Event.reset 1, Event.destroy 1]

/-- The state the scenario `resetScenario` ends in. -/
def resetScenarioEnd : World :=
  (run World.init resetScenario).getD World.init

/-! ## `include/mega/nodemanager.h` -/

/-- Modelled from the spec: `NodeHandle` is declared in `types.h`, which is not among the
sources. The spec's glossary calls a handle an "opaque unique 64-bit node identifier";
two handles are equal when their identifiers are. -/
structure NodeHandle where
  h : Nat
deriving DecidableEq, Repr

/-- `NodeManager::Rootnodes` (nodemanager.h lines 281-290): the handles of the files,
vault and rubbish root nodes. -/
structure Rootnodes where
  files : NodeHandle
  vault : NodeHandle
  rubbish : NodeHandle
deriving DecidableEq, Repr

/-- `Rootnodes::isRootNode` (nodemanager.h line 289). It is a `const` member function:
it reads the record and returns a `bool`. -/
def Rootnodes.isRootNode (r : Rootnodes) (h : NodeHandle) : Bool :=
  h == r.files || h == r.vault || h == r.rubbish

/-! ### Notification/commit batcher (spec section 4.4)

The bodies of `notifyNode` and `notifyPurge` are in `nodemanager.cpp`, which is not among
the sources; the header only declares them (nodemanager.h lines 190-197, 310-311). -/

/-- Modelled from the spec: the Persistent Table, an external collaborator ("opaque ordered
key to blob store with explicit transaction begin/commit/abort"). `records` is the content
a read sees; `snapshot` is `some s` while a transaction is open, `s` being the content when
it began. -/
structure DBTableNodes where
  records : List (NodeHandle × String)
  snapshot : Option (List (NodeHandle × String))
deriving DecidableEq, Repr

namespace DBTableNodes

/-- Modelled from the spec: `begin` opens a transaction (no effect inside one). -/
def begin (t : DBTableNodes) : DBTableNodes :=
  match t.snapshot with
  | some _ => t
  | none => { t with snapshot := some t.records }

/-- Modelled from the spec: `commit` makes the writes of the open transaction durable. -/
def commit (t : DBTableNodes) : DBTableNodes :=
  { t with snapshot := none }

/-- Modelled from the spec: `abort` drops every write of the open transaction. -/
def abort (t : DBTableNodes) : DBTableNodes :=
  match t.snapshot with
  | some s => { records := s, snapshot := none }
  | none => t

/-- Modelled from the spec: `put` writes the record of one node; a write can fail
("Transient I/O fault (storage read/write failure)"), which `ok = false` stands for, and a
failed write stores nothing. The result tells whether the write succeeded. -/
def put (t : DBTableNodes) (h : NodeHandle) (blob : String) (ok : Bool) : Bool × DBTableNodes :=
  if ok then
    (true, { t with records := t.records.filter (fun r => r.1 ≠ h) ++ [(h, blob)] })
  else
    (false, t)

end DBTableNodes

/-- Modelled from the spec: the Notification Queue `mNodeNotify` (nodemanager.h line 311), "an
ordered, de-duplicated-by-handle sequence of nodes marked dirty since the last flush", kept as
the nodes' handles, together with the `changed` dirty flag of every node. -/
structure NotifyQueue where
  mNodeNotify : List NodeHandle
  changed : NodeHandle → Bool

namespace NotifyQueue

/-- Nothing queued, nothing dirty. -/
def empty : NotifyQueue :=
  { mNodeNotify := [], changed := fun _ => false }

/-- Modelled from the spec: `notifyNode(node, &report)` "appends to the Notification Queue
unless already present (de-dup by handle), sets the dirty flag". -/
def notifyNode (q : NotifyQueue) (h : NodeHandle) : NotifyQueue :=
  { mNodeNotify := if h ∈ q.mNodeNotify then q.mNodeNotify else q.mNodeNotify ++ [h],
    changed := Function.update q.changed h true }

/-- Modelled from the spec: the write loop of `notifyPurge`, which "iterates the Notification
Queue, serializes and writes each dirty node to the Persistent Table"; it stops at the first
write that fails. `writeOk h` tells whether the write of node `h` succeeds. -/
def writeDirty (changed : NodeHandle → Bool) (serialize : NodeHandle → String)
    (writeOk : NodeHandle → Bool) : List NodeHandle → DBTableNodes → Bool × DBTableNodes
  | [], t => (true, t)
  | h :: hs, t =>
    if changed h then
      match t.put h (serialize h) (writeOk h) with
      | (true, t') => writeDirty changed serialize writeOk hs t'
      | (false, t') => (false, t')
    else
      writeDirty changed serialize writeOk hs t

/-- Modelled from the spec: `notifyPurge()` "iterates the Notification Queue, serializes and
writes each dirty node to the Persistent Table inside one DB transaction, clears dirty flags,
and empties the queue"; "if `notifyPurge` fails partway, the transaction is aborted wholesale
(all-or-nothing) rather than left partially applied, so a subsequent retry reprocesses the
whole batch". -/
def notifyPurge (serialize : NodeHandle → String) (writeOk : NodeHandle → Bool)
    (q : NotifyQueue) (t : DBTableNodes) : NotifyQueue × DBTableNodes :=
  match writeDirty q.changed serialize writeOk q.mNodeNotify t.begin with
  | (true, t') =>
    ({ mNodeNotify := [],
       changed := fun h => if h ∈ q.mNodeNotify then false else q.changed h }, t'.commit)
  | (false, t') => (q, t'.abort)

end NotifyQueue

/-- What happens to the batcher: a node is notified, or the queue is flushed while the writes
of the nodes in `failing` fail. -/
inductive BatchOp
  | notifyNode (h : NodeHandle)
  | notifyPurge (failing : List NodeHandle)
deriving DecidableEq, Repr

/-- One batcher operation on the queue and the table. -/
def batchStep (serialize : NodeHandle → String) (s : NotifyQueue × DBTableNodes) :
    BatchOp → NotifyQueue × DBTableNodes
  | BatchOp.notifyNode h => (s.1.notifyNode h, s.2)
  | BatchOp.notifyPurge failing =>
    NotifyQueue.notifyPurge serialize (fun h => decide (h ∉ failing)) s.1 s.2

/-- A sequence of batcher operations, executed left to right. -/
def batchRun (serialize : NodeHandle → String) (s : NotifyQueue × DBTableNodes)
    (ops : List BatchOp) : NotifyQueue × DBTableNodes :=
  ops.foldl (batchStep serialize) s

/-- The handles of a list in the order of their first occurrence, each once. -/
def firstOccurrences : List NodeHandle → List NodeHandle
  | [] => []
  | h :: hs => h :: (firstOccurrences hs).filter (fun x => x ≠ h)

/-- Modelled from the spec: `FileFingerprint` is declared outside the sources; the glossary
describes it as the "(size, modification time, content hash) tuple identifying file
content". -/
structure FileFingerprint where
  size : Nat
  mtime : Int
  crc : List Nat
deriving DecidableEq, Repr

/-- Modelled from the spec: the Fingerprint Index. `index` is the "ordered set of
(fingerprint to node) entries for all resident nodes"; `mAllFingerprintsLoaded`
(nodemanager.h line 302) "stores all FileFingerprint that have been looked up in DB".
`queries` counts the fingerprint queries sent to the Persistent Table. -/
structure FingerprintContainer where
  index : List (FileFingerprint × NodeHandle)
  mAllFingerprintsLoaded : List FileFingerprint
  queries : Nat
deriving DecidableEq, Repr

namespace FingerprintContainer

/-- Modelled from the spec: `allFingerprintsAreLoaded(fingerprint)`, whether the fingerprint
is marked fully-loaded. -/
def allFingerprintsAreLoaded (c : FingerprintContainer) (fp : FileFingerprint) : Bool :=
  decide (fp ∈ c.mAllFingerprintsLoaded)

/-- Modelled from the spec: `setAllFingerprintLoaded(fingerprint)` marks the fingerprint
fully-loaded. -/
def setAllFingerprintLoaded (c : FingerprintContainer) (fp : FileFingerprint) :
    FingerprintContainer :=
  { c with mAllFingerprintsLoaded := fp :: c.mAllFingerprintsLoaded }

/-- The resident nodes whose fingerprint is `fp`, as the index knows them. -/
def nodesWith (c : FingerprintContainer) (fp : FileFingerprint) : List NodeHandle :=
  (c.index.filter fun e => e.1 = fp).map Prod.snd

/-- Modelled from the spec: `insertFingerprint(node)`, "every node that becomes resident is
indexed". -/
def insertFingerprint (c : FingerprintContainer) (fp : FileFingerprint) (h : NodeHandle) :
    FingerprintContainer :=
  if (fp, h) ∈ c.index then c else { c with index := c.index ++ [(fp, h)] }

/-- Modelled from the spec: `removeFingerprint(node)`, "every node that is structurally
removed is de-indexed". -/
def removeFingerprint (c : FingerprintContainer) (fp : FileFingerprint) (h : NodeHandle) :
    FingerprintContainer :=
  { c with index := c.index.filter fun e => e ≠ (fp, h) }

/-- Modelled from the spec: `getNodesByFingerprint(fp)`: "if `fp` is marked fully-loaded
[...] answer from the in-memory index only; otherwise query storage, merge results into
RAM/index, mark the fingerprint fully-loaded, and answer". `stored` is the content of the
Persistent Table, as (fingerprint, node) rows. -/
def getNodesByFingerprint (stored : List (FileFingerprint × NodeHandle))
    (c : FingerprintContainer) (fp : FileFingerprint) :
    List NodeHandle × FingerprintContainer :=
  if c.allFingerprintsAreLoaded fp then
    (c.nodesWith fp, c)
  else
    let found := stored.filter fun e => e.1 = fp
    let merged : FingerprintContainer :=
      { c with
        index := c.index ++ found.filter (fun e => e ∉ c.index),
        queries := c.queries + 1 }
    let marked := merged.setAllFingerprintLoaded fp
    (marked.nodesWith fp, marked)

end FingerprintContainer

/-- What happens to the fingerprint index between two lookups; a lookup comes with the
content the Persistent Table has at that moment. -/
inductive FingerprintOp
  | insertFingerprint (fp : FileFingerprint) (h : NodeHandle)
  | removeFingerprint (fp : FileFingerprint) (h : NodeHandle)
  | getNodesByFingerprint (stored : List (FileFingerprint × NodeHandle)) (fp : FileFingerprint)
deriving DecidableEq, Repr

/-- One operation on the fingerprint index. -/
def fingerprintStep (c : FingerprintContainer) : FingerprintOp → FingerprintContainer
  | FingerprintOp.insertFingerprint fp h => c.insertFingerprint fp h
  | FingerprintOp.removeFingerprint fp h => c.removeFingerprint fp h
  | FingerprintOp.getNodesByFingerprint stored fp => (c.getNodesByFingerprint stored fp).2

/-- A sequence of operations on the fingerprint index, executed left to right. -/
def fingerprintRun (c : FingerprintContainer) (ops : List FingerprintOp) :
    FingerprintContainer :=
  ops.foldl fingerprintStep c

/-- Fingerprint of the examples: a file of 10 bytes. -/
def fingerprintA : FileFingerprint :=
  { size := 10, mtime := 100, crc := [1, 2, 3, 4] }

/-- Fingerprint of the examples: a file of 20 bytes. -/
def fingerprintB : FileFingerprint :=
  { size := 20, mtime := 200, crc := [5, 6, 7, 8] }

/-- Storage of the examples: nodes 1 and 2 share `fingerprintA`. -/
def fingerprintStored : List (FileFingerprint × NodeHandle) :=
  [(fingerprintA, ⟨1⟩), (fingerprintA, ⟨2⟩), (fingerprintB, ⟨3⟩)]

/-- Index of the examples: node 1 is resident, nothing was looked up yet. -/
def fingerprintStart : FingerprintContainer :=
  { index := [(fingerprintA, ⟨1⟩)], mAllFingerprintsLoaded := [], queries := 0 }

/-- Operations between the two lookups of the examples. -/
def fingerprintLater : List FingerprintOp :=
  [FingerprintOp.insertFingerprint fingerprintA ⟨4⟩,
   FingerprintOp.getNodesByFingerprint fingerprintStored fingerprintB,
   FingerprintOp.removeFingerprint fingerprintA ⟨1⟩]

/-- The index of the examples after the first lookup of `fingerprintA` and the operations
`fingerprintLater`. -/
def fingerprintEnd : FingerprintContainer :=
  fingerprintRun (fingerprintStart.getNodesByFingerprint fingerprintStored fingerprintA).2
    fingerprintLater

/-! ### Resident node map and tree counters (spec sections 4.1, 4.3, 4.5)

`addNode`, `getChildren`, `checkOrphanNodes`, `updateCounter`, `setNodeCounter` and
`updateTreeCounter` are declared in nodemanager.h (lines 104-105, 113, 194, 215, 255, 327);
their bodies are in `nodemanager.cpp`, which is not among the sources. -/

/-- Modelled from the spec: `NodeCounter` is declared outside the sources; the spec describes
it as the "aggregate over a subtree: counts of files, folders, versions; total bytes". -/
@[ext]
structure NodeCounter where
  files : Int
  folders : Int
  versions : Int
  storage : Int
deriving DecidableEq, Repr

namespace NodeCounter

instance : Zero NodeCounter := ⟨⟨0, 0, 0, 0⟩⟩

instance : Add NodeCounter :=
  ⟨fun a b => ⟨a.files + b.files, a.folders + b.folders, a.versions + b.versions,
    a.storage + b.storage⟩⟩

instance : Neg NodeCounter :=
  ⟨fun a => ⟨-a.files, -a.folders, -a.versions, -a.storage⟩⟩

instance : Sub NodeCounter :=
  ⟨fun a b => ⟨a.files - b.files, a.folders - b.folders, a.versions - b.versions,
    a.storage - b.storage⟩⟩

instance : AddCommGroup NodeCounter where
  add_assoc a b c := by ext <;> exact Int.add_assoc _ _ _
  zero_add a := by ext <;> exact Int.zero_add _
  add_zero a := by ext <;> exact Int.add_zero _
  nsmul := nsmulRec
  zsmul := zsmulRec
  neg_add_cancel a := by ext <;> exact Int.add_left_neg _
  add_comm a b := by ext <;> exact Int.add_comm _ _
  sub_eq_add_neg a b := by ext <;> exact Int.sub_eq_add_neg

end NodeCounter

/-- `NodeManager::OperationType` (nodemanager.h lines 319-323). -/
inductive OperationType
  | INCREASE
  | DECREASE
deriving DecidableEq, Repr

/-- Modelled from the spec: a `Node` as it is handed to `addNode`: its "immutable handle",
its "parent handle (may be undefined for roots)", `none` being `UNDEF`, and its own
contribution to the counters ("each leaf contributing 1 file or 1 folder"). -/
structure Node where
  handle : NodeHandle
  parentHandle : Option NodeHandle
  own : NodeCounter
deriving DecidableEq, Repr

/-- Modelled from the spec: an entry of the Resident Node Map `mNodes` (nodemanager.h line
306): the node, the parent it is wired to (`none` while no parent/child edge is wired), its
aggregate counter, and whether its children are "fully loaded" or "partial". -/
structure NodeManagerNode where
  node : Node
  parent : Option NodeHandle
  counter : NodeCounter
  mAllChildrenHandleLoaded : Bool
deriving DecidableEq, Repr

/-- Modelled from the spec: `MissingParentNodes` (nodemanager.h line 104,
`map<NodeHandle, set<Node*>>`), "a transient map from a not-yet-resident parent handle to the
set of child nodes waiting on it". -/
abbrev MissingParentNodes := List (NodeHandle × List NodeHandle)

namespace MissingParentNodes

/-- The children waiting on `parent`; empty when the map has no entry for it. -/
def waiting (m : MissingParentNodes) (parent : NodeHandle) : List NodeHandle :=
  match m.find? fun e => decide (e.1 = parent) with
  | some e => e.2
  | none => []

/-- Whether the map has an entry for `parent`. -/
def hasEntry (m : MissingParentNodes) (parent : NodeHandle) : Bool :=
  m.any fun e => decide (e.1 = parent)

/-- The statement `missingParentNodes[parent].insert(child)`. -/
def record (m : MissingParentNodes) (parent child : NodeHandle) : MissingParentNodes :=
  if m.hasEntry parent then
    m.map fun e => if e.1 = parent ∧ child ∉ e.2 then (e.1, e.2 ++ [child]) else e
  else
    m ++ [(parent, [child])]

/-- The statement `missingParentNodes.erase(parent)`. -/
def erase (m : MissingParentNodes) (parent : NodeHandle) : MissingParentNodes :=
  m.filter fun e => decide (e.1 ≠ parent)

end MissingParentNodes

/-- Modelled from the spec: the Resident Node Map of the `NodeManager`, handle to node. -/
structure NodeManager where
  mNodes : List NodeManagerNode
deriving DecidableEq, Repr

namespace NodeManager

/-- Modelled from the spec: `getNodeInRAM(handle)` (nodemanager.h line 313), the resident
entry of a handle. -/
def getNodeInRAM (nm : NodeManager) (h : NodeHandle) : Option NodeManagerNode :=
  nm.mNodes.find? fun r => decide (r.node.handle = h)

/-- Changes the resident entry of `h` by `f`. -/
def modifyNode (nm : NodeManager) (h : NodeHandle) (f : NodeManagerNode → NodeManagerNode) :
    NodeManager :=
  { mNodes := nm.mNodes.map fun r => if r.node.handle = h then f r else r }

/-- The in-memory child list of `parent`: the resident nodes wired to it. -/
def childrenInRAM (nm : NodeManager) (parent : NodeHandle) : List NodeManagerNode :=
  nm.mNodes.filter fun r => decide (r.parent = some parent)

/-- One application of a counter delta: "If operationType is INCREASE, nc is added, in other
case is decreased" (nodemanager.h line 326). -/
def applyCounter (c nc : NodeCounter) : OperationType → NodeCounter
  | OperationType.INCREASE => c + nc
  | OperationType.DECREASE => c - nc

/-- The walk of `updateTreeCounter` with at most `fuel` steps. -/
def updateTreeCounterWalk (nc : NodeCounter) (operation : OperationType) :
    Nat → NodeManager → Option NodeHandle → NodeManager
  | 0, nm, _ => nm
  | _ + 1, nm, none => nm
  | fuel + 1, nm, some h =>
    match nm.getNodeInRAM h with
    | none => nm
    | some r =>
      updateTreeCounterWalk nc operation fuel
        (nm.modifyNode h fun x => { x with counter := applyCounter x.counter nc operation })
        r.parent

/-- Modelled from the spec: `updateTreeCounter(origin, delta, INCREASE|DECREASE, &report)`
"applies `delta` to `origin`'s own counter and to every *resident* ancestor up to the
relevant root, in O(depth); never walks down into children". A walk visits every resident
node at most once, so the number of resident nodes bounds it. -/
def updateTreeCounter (nm : NodeManager) (origin : Option NodeHandle) (nc : NodeCounter)
    (operation : OperationType) : NodeManager :=
  updateTreeCounterWalk nc operation nm.mNodes.length nm origin

/-- Modelled from the spec: `updateCounter(n, oldParent)` (nodemanager.h lines 214-215),
"update the counter of 'n' when its parent is updated (from 'oldParent' to 'n.parent')": the
counter of `n` is taken from the old parent and its ancestors and given to the new ones. -/
def updateCounter (nm : NodeManager) (n : NodeHandle) (oldParent : Option NodeHandle) :
    NodeManager :=
  match nm.getNodeInRAM n with
  | none => nm
  | some r =>
    (nm.updateTreeCounter oldParent r.counter OperationType.DECREASE).updateTreeCounter
      r.parent r.counter OperationType.INCREASE

/-- Wiring the parent/child edge from `child` to `parent`; as a structural mutation it calls
the counter propagation in the same operation (spec section 4.3). -/
def wire (nm : NodeManager) (child parent : NodeHandle) : NodeManager :=
  (nm.modifyNode child fun x => { x with parent := some parent }).updateCounter child none

/-- The new entry of the Resident Node Map for a freshly constructed node: no edge is wired
yet and the counter is the node's own contribution. -/
def insertNode (nm : NodeManager) (node : Node) : NodeManager :=
  { mNodes := nm.mNodes ++
      [{ node := node, parent := none, counter := node.own,
         mAllChildrenHandleLoaded := false }] }

/-- The part of `addNode` about the node's parent: the edge is wired when the parent is
resident; otherwise the node is recorded in `missingParents`. A node without parent handle
(a root) has no parent to wait for. -/
def attachToParent (nm : NodeManager) (node : Node) (missingParentNodes : MissingParentNodes) :
    NodeManager × MissingParentNodes :=
  match node.parentHandle with
  | none => (nm, missingParentNodes)
  | some p =>
    if (nm.getNodeInRAM p).isSome then
      (nm.wire node.handle p, missingParentNodes)
    else
      (nm, missingParentNodes.record p node.handle)

/-- The part of `addNode` about waiting children: "on later parent arrival the edge is
retroactively wired", for every child in `waiting`. -/
def resolveWaiting (nm : NodeManager) (parent : NodeHandle) (waiting : List NodeHandle) :
    NodeManager :=
  waiting.foldl (fun acc c => acc.wire c parent) nm

/-- Modelled from the spec: `addNode(node, notify, isFetching, &missingParents)` "takes
ownership of a freshly constructed node; if its parent is not resident, records it in
`missingParents` instead of wiring the parent/child edge immediately [...]; on later parent
arrival the edge is retroactively wired. Returns false if the handle already exists". The
map entry of a parent is "resolved (and the entry removed) as soon as the parent arrives".
The spec gives `notify` and `isFetching` no effect on the tree; they are left out. -/
def addNode (nm : NodeManager) (node : Node) (missingParentNodes : MissingParentNodes) :
    Bool × NodeManager × MissingParentNodes :=
  if (nm.getNodeInRAM node.handle).isSome then
    (false, nm, missingParentNodes)
  else
    let wired := (nm.insertNode node).attachToParent node missingParentNodes
    (true, wired.1.resolveWaiting node.handle (wired.2.waiting node.handle),
      wired.2.erase node.handle)

/-- A series of `addNode` calls that share one `missingParents` map, as in bulk ingestion. -/
def addNodes (nm : NodeManager) (missingParentNodes : MissingParentNodes) (nodes : List Node) :
    NodeManager × MissingParentNodes :=
  nodes.foldl (fun s n => (s.1.addNode n s.2).2) (nm, missingParentNodes)

/-- Modelled from the spec: `getChildren(parent)`: "if the parent's children are fully loaded
in RAM, answers directly from the in-memory child list; otherwise issues a [...] query
against the Persistent Table (by parent handle [...]) and pages the results into RAM".
`stored` is the content of the Persistent Table, nodes with their counters; a paged-in node
is wired to the parent, and the answer is the child list then in memory. -/
def getChildren (stored : List (Node × NodeCounter)) (nm : NodeManager) (parent : NodeHandle) :
    List NodeHandle × NodeManager :=
  match nm.getNodeInRAM parent with
  | none => ([], nm)
  | some r =>
    if r.mAllChildrenHandleLoaded then
      ((nm.childrenInRAM parent).map fun c => c.node.handle, nm)
    else
      let found := stored.filter fun e =>
        decide (e.1.parentHandle = some parent) && (nm.getNodeInRAM e.1.handle).isNone
      let paged : NodeManager :=
        { mNodes := nm.mNodes ++ found.map fun e =>
            { node := e.1, parent := some parent, counter := e.2,
              mAllChildrenHandleLoaded := false } }
      let marked := paged.modifyNode parent fun x => { x with mAllChildrenHandleLoaded := true }
      ((marked.childrenInRAM parent).map fun c => c.node.handle, marked)

end NodeManager

/-- Modelled from the spec: `checkOrphanNodes(missingParents)`: "any surviving entries indicate
nodes whose parent never arrived - reported as a consistency fault to the caller". The
result is the list of the nodes reported. -/
def checkOrphanNodes (nodesWithMissingParent : MissingParentNodes) : List NodeHandle :=
  nodesWithMissingParent.flatMap fun e => e.2

/-! ### The calls that change the tree (spec sections 4.1, 4.3, 4.4) -/

/-- Modelled from the spec: the removal of one node, which "is done through notifypurge()"
(nodemanager.h line 107): the node leaves the Resident Node Map, the edges to its children
are dropped, and its counter is taken from its parent and the parent's ancestors
(`DECREASE`, "ie. upon deletion", nodemanager.h line 326). -/
def NodeManager.removeNode (nm : NodeManager) (n : NodeHandle) : NodeManager :=
  match nm.getNodeInRAM n with
  | none => nm
  | some r =>
    NodeManager.updateTreeCounter
      { mNodes := (nm.mNodes.filter fun x => decide (x.node.handle ≠ n)).map fun x =>
          if x.parent = some n then { x with parent := none } else x }
      r.parent r.counter OperationType.DECREASE

/-- Modelled from the spec: what `notifyPurge` does to the Resident Node Map: the queued
nodes that are marked removed, `removed`, are removed one after the other. Its writes to the
Persistent Table are `NotifyQueue.notifyPurge`. -/
def NodeManager.notifyPurge (nm : NodeManager) (removed : List NodeHandle) : NodeManager :=
  removed.foldl NodeManager.removeNode nm

/-- Shape of the state of a registered committer that is never reset: it still points
at the table, and the calls made so far are complete begin/commit pairs, followed by one
more `begin` exactly when `mStarted` is set. -/
def RegisteredShape (base : List TableCall) (s : DBTableTransactionCommitter × DbTable) : Prop :=
  s.1.mTable = true ∧
  ∃ n, s.2.calls = base ++ (alternating n ++ if s.1.mStarted then [TableCall.begin] else [])

/-- Every live committer that points at the table is the one in the table's slot. -/
def SingleOwner (w : World) : Prop :=
  ∀ i c, w.live i = some c → c.mTable = true → w.table.mTransactionCommitter = some i

/-- State while the outermost committer `outer` is registered and neither committed
explicitly, reset nor destroyed: it points at the table, it is in the slot, and the calls
made since it registered are one `begin` if its `mStarted` flag `b` is set, none otherwise. -/
def OuterShape (base : List TableCall) (outer : Nat) (w : World) (b : Bool) : Prop :=
  w.live outer = some { mTable := true, mStarted := b } ∧
  w.table.mTransactionCommitter = some outer ∧
  SingleOwner w ∧
  w.table.calls = base ++ (if b then [TableCall.begin] else [])

/-- Invariant of the queue: no handle twice, and every queued node is dirty. -/
def QueueOk (q : NotifyQueue) : Prop :=
  q.mNodeNotify.Nodup ∧ ∀ h ∈ q.mNodeNotify, q.changed h = true

/-- The handle and wired parent of every resident node, in map order. -/
def edges (nm : NodeManager) : List (NodeHandle × Option NodeHandle) :=
  nm.mNodes.map fun r => (r.node.handle, r.parent)

/-- The node `c` is resident but not wired, it waits for its parent `p`, which is not
resident, and the map records it under no other parent. -/
def Pending (c p : NodeHandle) (nm : NodeManager) (m : MissingParentNodes) : Prop :=
  (∀ e ∈ edges nm, e.1 ≠ p) ∧
  (∃ e ∈ edges nm, e.1 = c) ∧
  (∀ e ∈ edges nm, e.1 = c → e.2 = none) ∧
  c ∈ MissingParentNodes.waiting m p ∧
  (∀ e ∈ m, c ∈ e.2 → e.1 = p)

/-- Node of the examples: the file 2 in folder 1. -/
def ingestChild : Node :=
  { handle := ⟨2⟩, parentHandle := some ⟨1⟩, own := ⟨1, 0, 0, 10⟩ }

/-- Node of the examples: the folder 1, a root. -/
def ingestParent : Node :=
  { handle := ⟨1⟩, parentHandle := none, own := ⟨0, 1, 0, 0⟩ }

/-- Nodes of the examples that arrive between `ingestChild` and `ingestParent`. -/
def ingestBetween : List Node :=
  [{ handle := ⟨3⟩, parentHandle := some ⟨2⟩, own := ⟨0, 0, 1, 5⟩ },
   { handle := ⟨4⟩, parentHandle := some ⟨7⟩, own := ⟨1, 0, 0, 1⟩ }]

/-- The result of adding `ingestChild` to an empty node manager. -/
def ingestFirst : Bool × NodeManager × MissingParentNodes :=
  NodeManager.addNode { mNodes := [] } ingestChild []

/-- The result of adding `ingestParent` after `ingestChild` and `ingestBetween`. -/
def ingestLast : Bool × NodeManager × MissingParentNodes :=
  (NodeManager.addNodes ingestFirst.2.1 ingestFirst.2.2 ingestBetween).1.addNode ingestParent
    (NodeManager.addNodes ingestFirst.2.1 ingestFirst.2.2 ingestBetween).2

/-- A `std::string`, as the sequence of its characters. -/
abbrev CppString := List Char

/-- The member function `std::string::find(char)`: the position of the first occurrence of `c`,
`none` for `npos`. -/
def CppString.find : CppString → Char → Option Nat
  | [], _ => none
  | x :: xs, c => if x = c then some 0 else (CppString.find xs c).map fun p => p + 1

/-- `Arguments::parseOneArgument` (arguments.cpp lines 29-35); `substr(0, pos)` is `take pos`
and `substr(pos + 1)` is `drop (pos + 1)`. -/
def parseOneArgument (argument : CppString) : CppString × CppString :=
  match argument.find '=' with
  | none => (argument, [])
  | some pos => (argument.take pos, argument.drop (pos + 1))

/-- A `std::unordered_map<std::string, std::string>`, as the list of its key/value pairs;
keys are unique. -/
abbrev ArgumentMap := List (CppString × CppString)

/-- The member function `unordered_map::emplace`: the pair is inserted only when the map has
no element with that key. -/
def ArgumentMap.emplace (m : ArgumentMap) (kv : CppString × CppString) : ArgumentMap :=
  if m.any fun e => decide (e.1 = kv.1) then m else m ++ [kv]

/-- The member function `unordered_map::find`: the element with the key, `none` for `end()`. -/
def ArgumentMap.find (m : ArgumentMap) (name : CppString) : Option (CppString × CppString) :=
  List.find? (fun e => decide (e.1 = name)) m

/-- The member function `unordered_map::count`: the number of elements with the key. -/
def ArgumentMap.count (m : ArgumentMap) (name : CppString) : Nat :=
  (List.filter (fun e => decide (e.1 = name)) m).length

/-- `Arguments::parse` (arguments.cpp lines 19-27). -/
def Arguments.parse (arguments : List CppString) : ArgumentMap :=
  arguments.foldl (fun result argument => result.emplace (parseOneArgument argument)) []

/-- The class `Arguments`: its member `mValues`. -/
structure Arguments where
  mValues : ArgumentMap
deriving DecidableEq, Repr

/-- The constructor `Arguments(argc, argv)` (arguments.cpp lines 5-11): `argv[0]` is skipped. -/
def Arguments.ofArgv (argv : List CppString) : Arguments :=
  { mValues := Arguments.parse (argv.drop 1) }

/-- `Arguments::getValue` (arguments.cpp lines 13-17). -/
def Arguments.getValue (a : Arguments) (name defaultValue : CppString) : CppString :=
  match a.mValues.find name with
  | none => defaultValue
  | some e => e.2

/-- `Arguments::contains` (arguments.cpp lines 47-50). -/
def Arguments.contains (a : Arguments) (name : CppString) : Bool :=
  decide (a.mValues.count name > 0)

/-- The name part of an argument: the text before its first `=`, or the whole argument. -/
def namePart (argument : CppString) : CppString :=
  (parseOneArgument argument).1

/-- The value part of an argument: the text after its first `=`, or the empty string. -/
def valuePart (argument : CppString) : CppString :=
  (parseOneArgument argument).2

/-- Arguments of the examples: `-k=v=w`, `-k=z`, `-flag`. -/
def exampleArguments : List CppString :=
  [['-', 'k', '=', 'v', '=', 'w'], ['-', 'k', '=', 'z'], ['-', 'f', 'l', 'a', 'g']]

/-! ## `NodeSearchFilter` (nodemanager.h lines 39-79) -/

/-- The enumeration `ShareType_t`; its declaration is in `types.h`, its values are those of
`DbTable::sharesOrLink_t` (db.h line 52). -/
inductive ShareType_t
  | NO_SHARES
  | IN_SHARES
  | OUT_SHARES
  | PENDING_SHARES
  | LINK
deriving DecidableEq, Repr

/-- The enumeration `MimeType_t` is declared in `types.h`; a value is kept as the integer it
stands for, so that `static_cast<MimeType_t>` of an `int` keeps the number. -/
abbrev MimeType_t := Int

/-- What `NodeSearchFilter::copyFrom` reads from its template argument `f`: `byName()` is a
`const char*` (`none` for a null pointer), `byCategory()` an `int`, `bySensitivity()` a
`bool`, `byLocationHandle()` a 64-bit handle, and the two creation-time limits `int64_t`. -/
structure SourceFilter where
  byName : Option String
  byCategory : Int
  bySensitivity : Bool
  byLocationHandle : Nat
  byCreationTimeLowerLimit : Int
  byCreationTimeUpperLimit : Int
deriving DecidableEq, Repr

/-- The private members of `NodeSearchFilter` (nodemanager.h lines 72-78). -/
structure NodeSearchFilter where
  mNameFilter : String
  mMimeCategory : MimeType_t
  mExcludeSensitive : Bool
  mLocationHandle : Nat
  mShareType : ShareType_t
  mCreationLowerLimit : Int
  mCreationUpperLimit : Int
deriving DecidableEq, Repr

namespace NodeSearchFilter

/-- The constructor `NodeSearchFilter(ShareType_t st)` (nodemanager.h line 42) with the member
initialisers of lines 72-78; `mimeTypeUnknown` and `undef` stand for the constants
`MIME_TYPE_UNKNOWN` and `UNDEF`, which are declared in `types.h`. -/
def construct (mimeTypeUnknown : MimeType_t) (undef : Nat) (st : ShareType_t) :
    NodeSearchFilter :=
  { mNameFilter := "", mMimeCategory := mimeTypeUnknown, mExcludeSensitive := false,
    mLocationHandle := undef, mShareType := st, mCreationLowerLimit := 0,
    mCreationUpperLimit := 0 }

/-- `copyFrom(f, shareType)` (nodemanager.h lines 44-54). -/
def copyFrom (_self : NodeSearchFilter) (f : SourceFilter) (shareType : ShareType_t) :
    NodeSearchFilter :=
  { mNameFilter := match f.byName with
      | some name => name
      | none => "",
    mMimeCategory := f.byCategory,
    mExcludeSensitive := f.bySensitivity,
    mLocationHandle := f.byLocationHandle,
    mShareType := shareType,
    mCreationLowerLimit := f.byCreationTimeLowerLimit,
    mCreationUpperLimit := f.byCreationTimeUpperLimit }

/-- The call `copyFrom(f)`: the omitted argument takes its default `NO_SHARES` (line 45). -/
def copyFromDefault (self : NodeSearchFilter) (f : SourceFilter) : NodeSearchFilter :=
  self.copyFrom f ShareType_t.NO_SHARES

/-- `byName()` (nodemanager.h line 56). -/
def byName (self : NodeSearchFilter) : String := self.mNameFilter

/-- `byCategory()` (nodemanager.h line 57). -/
def byCategory (self : NodeSearchFilter) : MimeType_t := self.mMimeCategory

/-- `bySensitivity()` (nodemanager.h line 58). -/
def bySensitivity (self : NodeSearchFilter) : Bool := self.mExcludeSensitive

/-- `byLocationHandle()` (nodemanager.h line 62). -/
def byLocationHandle (self : NodeSearchFilter) : Nat := self.mLocationHandle

/-- `byShareType()` (nodemanager.h line 66). -/
def byShareType (self : NodeSearchFilter) : ShareType_t := self.mShareType

/-- `byCreationTimeLowerLimit()` (nodemanager.h line 68). -/
def byCreationTimeLowerLimit (self : NodeSearchFilter) : Int := self.mCreationLowerLimit

/-- `byCreationTimeUpperLimit()` (nodemanager.h line 69). -/
def byCreationTimeUpperLimit (self : NodeSearchFilter) : Int := self.mCreationUpperLimit

end NodeSearchFilter

/-! ## `src/posix/gfx/worker/socket_utils.cpp` -/

/-- Constants of the system headers `<errno.h>`, `<poll.h>` and `<sys/un.h>` that the file
uses; `sunPathSize` is `sizeof(sockaddr_un::sun_path)`. -/
structure Posix where
  EAGAIN : Nat
  EWOULDBLOCK : Nat
  EINTR : Nat
  ECONNABORTED : Nat
  ETIMEDOUT : Nat
  ENAMETOOLONG : Nat
  POLLIN : Nat
  POLLOUT : Nat
  POLLERR : Nat
  POLLHUP : Nat
  POLLNVAL : Nat
  sunPathSize : Nat
deriving DecidableEq, Repr

/-- The values of the constants on Linux. -/
def Posix.linux : Posix :=
  { EAGAIN := 11, EWOULDBLOCK := 11, EINTR := 4, ECONNABORTED := 103, ETIMEDOUT := 110,
    ENAMETOOLONG := 36, POLLIN := 1, POLLOUT := 4, POLLERR := 8, POLLHUP := 16, POLLNVAL := 32,
    sunPathSize := 108 }

/-- The value of a `std::error_code` of the system category; `0` is the empty error code, and
the conversion to `bool` is `code ≠ 0`. -/
abbrev ErrorCode := Nat

/-- `isRetryErrorNo` (socket_utils.cpp lines 23-26). -/
def isRetryErrorNo (px : Posix) (errorNo : Nat) : Bool :=
  errorNo == px.EAGAIN || errorNo == px.EWOULDBLOCK || errorNo == px.EINTR

/-- `isPollError` (socket_utils.cpp lines 29-32): the `int` result of the `&` converted to
`bool`. -/
def isPollError (px : Posix) (event : Nat) : Bool :=
  event &&& (px.POLLERR ||| px.POLLHUP ||| px.POLLNVAL) != 0

/-- A `struct pollfd`. -/
structure PollFd where
  fd : Int
  events : Nat
  revents : Nat
deriving DecidableEq, Repr

/-- What one call of the system function `::poll` does: its return value, the `errno` it
leaves, the `revents` it writes into the entries of the array it was given, and the value
that `clock.passedTime()` has, in milliseconds, when it is read after the call. -/
structure PollOutcome where
  ret : Int
  errno : Nat
  revents : List Nat
  passed : Int
deriving DecidableEq, Repr

/-- The array of `pollfd` after the system call wrote the reported events into it. -/
def setRevents : List PollFd → List Nat → List PollFd
  | f :: fs, r :: rs => { f with revents := r } :: setRevents fs rs
  | fs, _ => fs

/-- The conversion `static_cast<int>` of a 64-bit count to a 32-bit `int`. -/
def castToInt (x : Int) : Int :=
  (x + 2147483648) % 4294967296 - 2147483648

/-- What `poll` leaves behind: the error code it returns, its own vector `fds` at that moment,
the timeout argument of every `::poll` call it made, in order, and the outcomes it did not
consume. -/
structure PollReport where
  code : ErrorCode
  fds : List PollFd
  timeouts : List Int
  rest : List PollOutcome
deriving DecidableEq, Repr

/-- The `do ... while` loop of `poll` and the code after it (socket_utils.cpp lines 40-56).
`remaining` is the variable of that name, `timeouts` the arguments passed to `::poll` so far.
The result is `none` when the list of outcomes ends before the function returns. -/
def pollLoop (px : Posix) (timeout : Int) :
    List PollFd → Int → List Int → List PollOutcome → Option PollReport
  | _, _, _, [] => none
  | fds, remaining, timeouts, o :: os =>
    let fds1 := setRevents fds o.revents
    let timeouts1 := timeouts ++ [castToInt timeout]
    let remaining1 := remaining - o.passed
    if o.ret < 0 ∧ o.errno = px.EINTR ∧ remaining1 > 0 then
      pollLoop px timeout fds1 remaining1 timeouts1 os
    else if o.ret < 0 then
      some { code := o.errno, fds := fds1, timeouts := timeouts1, rest := os }
    else if o.ret = 0 then
      some { code := px.ETIMEDOUT, fds := fds1, timeouts := timeouts1, rest := os }
    else
      some { code := 0, fds := fds1, timeouts := timeouts1, rest := os }

/-- `poll(fds, timeout)` (socket_utils.cpp lines 35-57). The parameter `fds` is a
`std::vector` taken by value: the function works on its own copy. -/
def poll (px : Posix) (fds : List PollFd) (timeout : Int) (outcomes : List PollOutcome) :
    Option PollReport :=
  pollLoop px timeout fds timeout [] outcomes

/-- `pollFd(fd, events, timeout)` (socket_utils.cpp lines 60-80): the error code returned and
the outcomes not consumed. The vector `fds` of `pollFd` is copied into `poll`, so after the
call `fds[0]` is still the entry `pollFd` built. -/
def pollFd (px : Posix) (fd : Int) (events : Nat) (timeout : Int)
    (outcomes : List PollOutcome) : Option (ErrorCode × List PollOutcome) :=
  let fds : List PollFd := [{ fd := fd, events := events, revents := 0 }]
  match poll px fds timeout outcomes with
  | none => none
  | some report =>
    if report.code ≠ 0 then
      some (report.code, report.rest)
    else
      match fds with
      | polledFd :: _ =>
        if isPollError px polledFd.revents then
          some (px.ECONNABORTED, report.rest)
        else
          some (0, report.rest)
      | [] => none

/-- `pollForRead` (socket_utils.cpp lines 82-85). -/
def pollForRead (px : Posix) (fd : Int) (timeout : Int) (outcomes : List PollOutcome) :
    Option (ErrorCode × List PollOutcome) :=
  pollFd px fd px.POLLIN timeout outcomes

/-- `pollForWrite` (socket_utils.cpp lines 87-90). -/
def pollForWrite (px : Posix) (fd : Int) (timeout : Int) (outcomes : List PollOutcome) :
    Option (ErrorCode × List PollOutcome) :=
  pollFd px fd px.POLLOUT timeout outcomes

/-- `pollForAccept` (socket_utils.cpp lines 92-95). -/
def pollForAccept (px : Posix) (fd : Int) (timeout : Int) (outcomes : List PollOutcome) :
    Option (ErrorCode × List PollOutcome) :=
  pollFd px fd px.POLLIN timeout outcomes

/-- `maxSocketPathLength` (socket_utils.cpp lines 97-100). -/
def maxSocketPathLength (px : Posix) : Nat :=
  px.sunPathSize - 1

/-- The library function `strlen` on the characters of a C string: the number of characters
before the first null character. -/
def strlen (s : CppString) : Nat :=
  (s.takeWhile fun c => c != Char.ofNat 0).length

/-- The system and library calls that `SocketUtils::listen` can make. -/
inductive SysCall
  | unlink (path : CppString)
  | createDirectoriesOfParent (path : CppString)
  | socket
  | bind (fd : Int) (sunPath : CppString)
  | listen (fd : Int) (queueLen : Nat)
  | close (fd : Int)
deriving DecidableEq, Repr

/-- What the system calls of `SocketUtils::listen` return: the result of `::socket` (a
descriptor, or a negative number) and of `::bind` and `::listen`, each with the `errno` it
leaves. -/
structure ListenOutcome where
  socketRet : Int
  socketErrno : Nat
  bindRet : Int
  bindErrno : Nat
  listenRet : Int
  listenErrno : Nat
deriving DecidableEq, Repr

/-- The array `un.sun_path` after `memset` and `strncpy(un.sun_path, socketPath.c_str(),
maxSocketPathLength())`: at most `maxSocketPathLength()` characters of the string, the rest
of the array null. -/
def sunPathOf (px : Posix) (socketPath : CppString) : CppString :=
  let copied := (socketPath.takeWhile fun c => c != Char.ofNat 0).take (maxSocketPathLength px)
  copied ++ List.replicate (px.sunPathSize - copied.length) (Char.ofNat 0)

/-- `doBindAndListen` (socket_utils.cpp lines 103-128): the error code and the calls made. -/
def doBindAndListen (px : Posix) (fd : Int) (socketPath : CppString) (env : ListenOutcome) :
    ErrorCode × List SysCall :=
  if env.bindRet = -1 then
    (env.bindErrno, [SysCall.bind fd (sunPathOf px socketPath)])
  else if env.listenRet < 0 then
    (env.listenErrno, [SysCall.bind fd (sunPathOf px socketPath), SysCall.listen fd 10])
  else
    (0, [SysCall.bind fd (sunPathOf px socketPath), SysCall.listen fd 10])

/-- `SocketUtils::listen` (socket_utils.cpp lines 259-298): the pair it returns and the calls
it made, in order. -/
def SocketUtils.listen (px : Posix) (socketPath : CppString) (env : ListenOutcome) :
    (ErrorCode × Int) × List SysCall :=
  if strlen socketPath ≥ maxSocketPathLength px then
    ((px.ENAMETOOLONG, -1), [])
  else
    let before := [SysCall.unlink socketPath, SysCall.createDirectoriesOfParent socketPath,
      SysCall.socket]
    if env.socketRet < 0 then
      ((env.socketErrno, -1), before)
    else
      let r := doBindAndListen px env.socketRet socketPath env
      if r.1 ≠ 0 then
        ((r.1, -1), before ++ r.2 ++ [SysCall.close env.socketRet])
      else
        ((0, env.socketRet), before ++ r.2)

/-- What one call of the system function `::read` does: its return value and the `errno` it
leaves. -/
structure ReadOutcome where
  ret : Int
  errno : Nat
deriving DecidableEq, Repr

/-- One `::read` call of `SocketUtils::read`: the value of `offset` (the data goes to
`buf + offset`), the number of bytes asked for, and what the call returned. -/
structure ReadRecord where
  offset : Nat
  count : Nat
  ret : Int
  errno : Nat
deriving DecidableEq, Repr

/-- What `SocketUtils::read` leaves behind: the error code it returns, the final `offset`, the
`::read` calls it made, and the poll and read outcomes it did not consume. -/
structure ReadReport where
  code : ErrorCode
  offset : Nat
  reads : List ReadRecord
  pollsLeft : List PollOutcome
  readsLeft : List ReadOutcome
deriving DecidableEq, Repr

/-- The `while` loop of `SocketUtils::read` and the return after it (socket_utils.cpp lines
200-233); `size_t` arithmetic is modulo `2^64`. The result is `none` when the outcomes end
before the function returns. -/
def SocketUtils.readLoop (px : Posix) (fd : Int) (n : Nat) (timeout : Int) :
    Nat → List ReadRecord → List PollOutcome → List ReadOutcome → Option ReadReport
  | offset, made, polls, reads =>
    if offset < n then
      match pollForRead px fd timeout polls with
      | none => none
      | some (errorCode, polls1) =>
        if errorCode ≠ 0 then
          some { code := errorCode, offset := offset, reads := made, pollsLeft := polls1,
                 readsLeft := reads }
        else
          match reads with
          | [] => none
          | r :: rs =>
            let remaining := (n + 18446744073709551616 - offset) % 18446744073709551616
            let made1 := made ++
              [{ offset := offset, count := remaining, ret := r.ret, errno := r.errno }]
            if r.ret < 0 ∧ isRetryErrorNo px r.errno = true then
              SocketUtils.readLoop px fd n timeout offset made1 polls1 rs
            else if r.ret < 0 then
              some { code := r.errno, offset := offset, reads := made1, pollsLeft := polls1,
                     readsLeft := rs }
            else if r.ret = 0 ∧ offset < n then
              some { code := px.ECONNABORTED, offset := offset, reads := made1,
                     pollsLeft := polls1, readsLeft := rs }
            else
              SocketUtils.readLoop px fd n timeout
                ((offset + r.ret.toNat) % 18446744073709551616) made1 polls1 rs
    else
      some { code := 0, offset := offset, reads := made, pollsLeft := polls,
             readsLeft := reads }

/-- `SocketUtils::read(fd, buf, n, timeout)` (socket_utils.cpp lines 197-234). -/
def SocketUtils.read (px : Posix) (fd : Int) (n : Nat) (timeout : Int)
    (polls : List PollOutcome) (reads : List ReadOutcome) : Option ReadReport :=
  SocketUtils.readLoop px fd n timeout 0 [] polls reads

/-- The number of bytes that the `::read` calls of a list delivered. -/
def bytesRead (made : List ReadRecord) : Nat :=
  (made.map fun t => t.ret.toNat).sum

/-- Every `::read` call of the list was made with `offset` equal to the number of bytes that
the calls before it delivered, asked for the `n - offset` bytes still missing, and was made
while bytes were missing. -/
def ReadTraceOk (n : Nat) (made : List ReadRecord) : Prop :=
  ∀ (i : Nat) (t : ReadRecord), made[i]? = some t →
    t.offset = bytesRead (made.take i) ∧ t.count = n - t.offset ∧ t.offset < n

/-- Poll outcomes of a run of `SocketUtils::read`: the descriptor is readable three times. -/
def exampleReadPolls : List PollOutcome :=
  [{ ret := 1, errno := 0, revents := [1], passed := 0 },
   { ret := 1, errno := 0, revents := [1], passed := 0 },
   { ret := 1, errno := 0, revents := [1], passed := 0 }]

/-- Read outcomes of that run: two bytes, an interrupted call (`EINTR`), three bytes. -/
def exampleReads : List ReadOutcome :=
  [{ ret := 2, errno := 0 }, { ret := -1, errno := 4 }, { ret := 3, errno := 0 }]

/-- What `SocketUtils::read` leaves behind on that run when asked for five bytes. -/
def exampleReadReport : ReadReport :=
  { code := 0, offset := 5,
    reads := [{ offset := 0, count := 5, ret := 2, errno := 0 },
              { offset := 2, count := 3, ret := -1, errno := 4 },
              { offset := 2, count := 3, ret := 3, errno := 0 }],
    pollsLeft := [], readsLeft := [] }

/-! ## `getNodeByHandle` (spec section 4.1)

The header declares `getNodeByHandle`, `getNodeInRAM`, `getNodeFromDataBase` and
`getNodeFromNodeSerialized` (nodemanager.h lines 109-110, 313, 331-342); their bodies are in
`nodemanager.cpp`, which is not among the sources. `NodeSerialized` is defined in db.h. -/

/-- The class `NodeSerialized` (db.h lines 31-36). -/
structure NodeSerialized where
  mDecrypted : Bool
  mNode : String
deriving DecidableEq, Repr

/-- Modelled from the spec: a node object in RAM. `address` tells node instances apart (two
results are the identical instance when their addresses are equal), `content` is the logical
content that the record deserialized to, and `undecryptable` is the mark a node gets when its
key material could not be decrypted. -/
structure NodeInstance where
  handle : NodeHandle
  address : Nat
  content : String
  undecryptable : Bool
deriving DecidableEq, Repr

/-- Modelled from the spec: the part of the Node Manager that `getNodeByHandle` works on: the
Resident Node Map `mNodes`, the handles entered in the Fingerprint Index `mFingerPrints`, and
the records of the Persistent Table `mTable`. `storageReads` counts the reads of the
Persistent Table and `allocated` the node objects constructed so far. -/
structure NodeCache where
  mNodes : List NodeInstance
  mFingerPrints : List NodeHandle
  mTable : List (NodeHandle × NodeSerialized)
  storageReads : Nat
  allocated : Nat
deriving DecidableEq, Repr

namespace NodeCache

/-- Modelled from the spec: `getNodeInRAM(handle)` (nodemanager.h line 313), the resident
node of a handle. -/
def getNodeInRAM (c : NodeCache) (h : NodeHandle) : Option NodeInstance :=
  c.mNodes.find? fun r => decide (r.handle = h)

/-- Modelled from the spec: the read query `getNode(handle, nodeSerialized)` of the Persistent
Table (db.h line 64, pure virtual): the record stored for the handle, if there is one. -/
def getNode (c : NodeCache) (h : NodeHandle) : Option NodeSerialized :=
  (c.mTable.find? fun e => decide (e.1 = h)).map Prod.snd

/-- Modelled from the spec: `getNodeFromNodeSerialized` (nodemanager.h lines 331-332), which
"returns nullptr if there are unserialization errors": the record is deserialized by
`unserializeNode`, a decrypt failure is tolerated "by marking the node
encrypted/undecryptable", and the new node is inserted "into the Resident Node Map and
Fingerprint Index". -/
def getNodeFromNodeSerialized (unserializeNode : String → Option String) (c : NodeCache)
    (h : NodeHandle) (nodeSerialized : NodeSerialized) : Option NodeInstance × NodeCache :=
  match unserializeNode nodeSerialized.mNode with
  | none => (none, c)
  | some content =>
    let node : NodeInstance :=
      { handle := h, address := c.allocated, content := content,
        undecryptable := !nodeSerialized.mDecrypted }
    (some node,
      { c with mNodes := c.mNodes ++ [node], mFingerPrints := c.mFingerPrints ++ [h],
               allocated := c.allocated + 1 })

/-- Modelled from the spec: `getNodeFromDataBase(handle)` (nodemanager.h lines 341-342),
"Return a node from Data base, node shouldn't be in RAM previously": it "queries the
Persistent Table for the serialized record, deserializes it ..., inserts it into the Resident
Node Map and Fingerprint Index, and returns it". -/
def getNodeFromDataBase (unserializeNode : String → Option String) (c : NodeCache)
    (h : NodeHandle) : Option NodeInstance × NodeCache :=
  let c1 := { c with storageReads := c.storageReads + 1 }
  match c.getNode h with
  | none => (none, c1)
  | some nodeSerialized => getNodeFromNodeSerialized unserializeNode c1 h nodeSerialized

/-- Modelled from the spec: `getNodeByHandle(handle)` (nodemanager.h lines 109-110, "if node
is not available in memory, it's loaded from DB"): it "returns the node if resident;
otherwise queries the Persistent Table". The result is the node returned (`none` for
`nullptr`) and the state afterwards. -/
def getNodeByHandle (unserializeNode : String → Option String) (c : NodeCache)
    (h : NodeHandle) : Option NodeInstance × NodeCache :=
  match c.getNodeInRAM h with
  | some node => (some node, c)
  | none => getNodeFromDataBase unserializeNode c h

end NodeCache

/-- A cache with nothing resident over a table that holds one record, for handle 7. -/
def coldCache : NodeCache :=
  { mNodes := [], mFingerPrints := [], mTable := [(⟨7⟩, { mDecrypted := true, mNode := "n7" })],
    storageReads := 0, allocated := 0 }

/-! ## Theorems -/

theorem applyOps_detached (c : DBTableTransactionCommitter) (t : DbTable)
    (hc : c.mTable = false) (ops : List CommitterOp) :
    (applyOps (c, t) ops).1.mTable = false ∧ (applyOps (c, t) ops).2 = t := by
  induction ops generalizing c with
  | nil => exact ⟨hc, rfl⟩
  | cons op ops ih =>
    cases op
    · have h : applyOp (c, t) CommitterOp.beginOnce = (c, t) := by
        simp [applyOp, beginOnce, hc]
      simpa [applyOps, h] using ih c hc
    · have h : applyOp (c, t) CommitterOp.commitNow = (c, t) := by
        simp [applyOp, commitNow, hc]
      simpa [applyOps, h] using ih c hc
    · have h : applyOp (c, t) CommitterOp.reset = (reset c, t) := rfl
      simpa [applyOps, h] using ih (reset c) rfl

/-- C1: on a table whose committer slot is occupied, a newly constructed
committer detaches itself (`mTable` is null) and leaves the table as it was; after any
sequence of `beginOnce`, `commitNow` and `reset` calls the table (its call trace and
its committer slot) is still unchanged, and so it is after the destructor ran. -/
theorem nested_committer_is_noop (t : DbTable) (self : Nat) (ops : List CommitterOp)
    (h : t.mTransactionCommitter.isSome = true) :
    (construct self true t).1.mTable = false ∧
    (construct self true t).2 = t ∧
    (applyOps (construct self true t) ops).2 = t ∧
    destroy (applyOps (construct self true t) ops).1
      (applyOps (construct self true t) ops).2 = t := by
  have hc : construct self true t = ({ mTable := false, mStarted := false }, t) := by
    simp [construct, h]
  have hd := applyOps_detached { mTable := false, mStarted := false } t rfl ops
  rw [hc]
  refine ⟨rfl, rfl, hd.2, ?_⟩
  simp [destroy, hd.1, hd.2]

theorem nested_committer_is_noop_witness :
    (construct 7 true { mTransactionCommitter := some 3, calls := [TableCall.begin] }).1.mTable
      = false ∧
    (construct 7 true { mTransactionCommitter := some 3, calls := [TableCall.begin] }).2
      = { mTransactionCommitter := some 3, calls := [TableCall.begin] } ∧
    (applyOps (construct 7 true { mTransactionCommitter := some 3, calls := [TableCall.begin] })
      [CommitterOp.beginOnce, CommitterOp.commitNow, CommitterOp.reset]).2
      = { mTransactionCommitter := some 3, calls := [TableCall.begin] } ∧
    destroy
      (applyOps (construct 7 true { mTransactionCommitter := some 3, calls := [TableCall.begin] })
        [CommitterOp.beginOnce, CommitterOp.commitNow, CommitterOp.reset]).1
      (applyOps (construct 7 true { mTransactionCommitter := some 3, calls := [TableCall.begin] })
        [CommitterOp.beginOnce, CommitterOp.commitNow, CommitterOp.reset]).2
      = { mTransactionCommitter := some 3, calls := [TableCall.begin] } :=
  nested_committer_is_noop { mTransactionCommitter := some 3, calls := [TableCall.begin] } 7
    [CommitterOp.beginOnce, CommitterOp.commitNow, CommitterOp.reset] rfl

theorem alternating_count (n : Nat) :
    (alternating n).count TableCall.begin = n ∧ (alternating n).count TableCall.commit = n ∧
    ∀ x ∈ alternating n, x = TableCall.begin ∨ x = TableCall.commit := by
  induction n with
  | zero => simp [alternating]
  | succ n ih =>
    obtain ⟨h1, h2, h3⟩ := ih
    refine ⟨by simp [alternating, h1], by simp [alternating, h2], ?_⟩
    intro x hx
    simp only [alternating, List.mem_cons] at hx
    rcases hx with hx | hx | hx
    · exact Or.inl hx
    · exact Or.inr hx
    · exact h3 x hx

theorem alternating_snoc (n : Nat) :
    alternating n ++ [TableCall.begin, TableCall.commit] = alternating (n + 1) := by
  induction n with
  | zero => rfl
  | succ n ih =>
    show TableCall.begin :: TableCall.commit :: (alternating n ++ _) = _
    rw [ih]
    rfl

theorem registeredShape_applyOp (base : List TableCall)
    (s : DBTableTransactionCommitter × DbTable) (op : CommitterOp)
    (hop : op ≠ CommitterOp.reset) (hs : RegisteredShape base s) :
    RegisteredShape base (applyOp s op) := by
  obtain ⟨c, t⟩ := s
  obtain ⟨hT, n, hn⟩ := hs
  simp only at hT hn
  cases op with
  | reset => exact absurd rfl hop
  | beginOnce =>
    cases hst : c.mStarted with
    | true =>
      have h : applyOp (c, t) CommitterOp.beginOnce = (c, t) := by
        simp [applyOp, beginOnce, hT, hst]
      rw [h]
      exact ⟨hT, n, hn⟩
    | false =>
      have h : applyOp (c, t) CommitterOp.beginOnce = ({ c with mStarted := true }, t.begin) := by
        simp [applyOp, beginOnce, hT, hst]
      rw [h]
      refine ⟨hT, n, ?_⟩
      simp [DbTable.begin, hn, hst]
  | commitNow =>
    cases hst : c.mStarted with
    | true =>
      have h : applyOp (c, t) CommitterOp.commitNow
          = ({ c with mStarted := false }, t.commit) := by
        simp [applyOp, commitNow, hT, hst]
      rw [h]
      refine ⟨hT, n + 1, ?_⟩
      simp [DbTable.commit, hn, hst, ← alternating_snoc]
    | false =>
      have h : applyOp (c, t) CommitterOp.commitNow = (c, t) := by
        simp [applyOp, commitNow, hT, hst]
      rw [h]
      exact ⟨hT, n, hn⟩

theorem registeredShape_applyOps (base : List TableCall) (ops : List CommitterOp)
    (s : DBTableTransactionCommitter × DbTable)
    (hops : ∀ op ∈ ops, op ≠ CommitterOp.reset) (hs : RegisteredShape base s) :
    RegisteredShape base (applyOps s ops) := by
  induction ops generalizing s with
  | nil => exact hs
  | cons op ops ih =>
    have h1 := registeredShape_applyOp base s op (hops op (List.mem_cons_self _ _)) hs
    exact ih (applyOp s op) (fun o ho => hops o (List.mem_cons_of_mem _ ho)) h1

/-- C3: a committer registered on a table (constructed while the slot was empty) makes,
under any sequence `ops` of `beginOnce` and `commitNow` calls without `reset`, only `begin`
and `commit` calls. After every initial part `ops.take k` the calls made since the
construction are complete begin/commit pairs plus one open `begin` exactly when `mStarted`
is set; `mStarted` is true exactly when the begins exceed the commits by one and false
exactly when the counts are equal; and once the destructor has run the calls made are
complete begin/commit pairs, so they start with `begin` and end with `commit`. -/
theorem no_double_begin_no_double_commit (t0 : DbTable) (self : Nat) (ops : List CommitterOp)
    (hslot : t0.mTransactionCommitter = none)
    (hops : ∀ op ∈ ops, op ≠ CommitterOp.reset) :
    (∀ k : Nat,
      let s := applyOps (construct self true t0) (ops.take k)
      let made := callsSince t0 s.2
      s.2.calls = t0.calls ++ made ∧
      (∀ x ∈ made, x = TableCall.begin ∨ x = TableCall.commit) ∧
      (∃ n, made = alternating n ++ if s.1.mStarted then [TableCall.begin] else []) ∧
      (s.1.mStarted = true ↔ made.count TableCall.begin = made.count TableCall.commit + 1) ∧
      (s.1.mStarted = false ↔ made.count TableCall.begin = made.count TableCall.commit)) ∧
    (let s := applyOps (construct self true t0) ops
     let t := destroy s.1 s.2
     t.calls = t0.calls ++ callsSince t0 t ∧ ∃ n, callsSince t0 t = alternating n) := by
  have h0 : RegisteredShape t0.calls (construct self true t0) := by
    refine ⟨by simp [construct, hslot], 0, ?_⟩
    simp [construct, hslot, alternating]
  constructor
  · intro k
    have hk := registeredShape_applyOps t0.calls (ops.take k) _
      (fun o ho => hops o (List.mem_of_mem_take ho)) h0
    obtain ⟨-, n, hn⟩ := hk
    obtain ⟨c1, c2, c3⟩ := alternating_count n
    have hmade : callsSince t0 (applyOps (construct self true t0) (ops.take k)).2
        = alternating n ++
          if (applyOps (construct self true t0) (ops.take k)).1.mStarted
          then [TableCall.begin] else [] := by
      simp [callsSince, hn]
    simp only
    rw [hmade]
    refine ⟨hn, ?_, ⟨n, rfl⟩, ?_, ?_⟩
    · intro x hx
      rcases List.mem_append.1 hx with hx | hx
      · exact c3 x hx
      · split at hx
        · simp at hx; exact Or.inl hx
        · simp at hx
    · cases (applyOps (construct self true t0) (ops.take k)).1.mStarted <;> simp [c1, c2]
    · cases (applyOps (construct self true t0) (ops.take k)).1.mStarted <;> simp [c1, c2]
  · have hk := registeredShape_applyOps t0.calls ops _ hops h0
    obtain ⟨hT, n, hn⟩ := hk
    cases hst : (applyOps (construct self true t0) ops).1.mStarted with
    | true =>
      have hd : (destroy (applyOps (construct self true t0) ops).1
          (applyOps (construct self true t0) ops).2).calls
          = t0.calls ++ alternating (n + 1) := by
        simp [destroy, commitNow, hT, hst, DbTable.commit, hn, ← alternating_snoc]
      simp only [callsSince]
      rw [hd]
      simp
    | false =>
      have hd : (destroy (applyOps (construct self true t0) ops).1
          (applyOps (construct self true t0) ops).2).calls
          = t0.calls ++ alternating n := by
        simp [destroy, commitNow, hT, hst, hn]
      simp only [callsSince]
      rw [hd]
      simp

theorem no_double_begin_no_double_commit_witness :
    (∀ k : Nat,
      let s := applyOps (construct 1 true { mTransactionCommitter := none, calls := [] })
        ([CommitterOp.beginOnce, CommitterOp.beginOnce, CommitterOp.commitNow,
          CommitterOp.commitNow, CommitterOp.beginOnce].take k)
      let made := callsSince { mTransactionCommitter := none, calls := [] } s.2
      s.2.calls = ({ mTransactionCommitter := none, calls := [] } : DbTable).calls ++ made ∧
      (∀ x ∈ made, x = TableCall.begin ∨ x = TableCall.commit) ∧
      (∃ n, made = alternating n ++ if s.1.mStarted then [TableCall.begin] else []) ∧
      (s.1.mStarted = true ↔ made.count TableCall.begin = made.count TableCall.commit + 1) ∧
      (s.1.mStarted = false ↔ made.count TableCall.begin = made.count TableCall.commit)) ∧
    (let s := applyOps (construct 1 true { mTransactionCommitter := none, calls := [] })
        [CommitterOp.beginOnce, CommitterOp.beginOnce, CommitterOp.commitNow,
          CommitterOp.commitNow, CommitterOp.beginOnce]
     let t := destroy s.1 s.2
     t.calls = ({ mTransactionCommitter := none, calls := [] } : DbTable).calls
        ++ callsSince { mTransactionCommitter := none, calls := [] } t ∧
     ∃ n, callsSince { mTransactionCommitter := none, calls := [] } t = alternating n) :=
  no_double_begin_no_double_commit { mTransactionCommitter := none, calls := [] } 1
    [CommitterOp.beginOnce, CommitterOp.beginOnce, CommitterOp.commitNow,
      CommitterOp.commitNow, CommitterOp.beginOnce] rfl (by decide)

/-! ### Single owner -/

theorem singleOwner_init : SingleOwner World.init := by
  intro i c h
  simp [World.init] at h

theorem beginOnce_fields (c : DBTableTransactionCommitter) (t : DbTable) :
    (beginOnce c t).1.mTable = c.mTable ∧
    (beginOnce c t).2.mTransactionCommitter = t.mTransactionCommitter := by
  unfold beginOnce
  split <;> simp [DbTable.begin]

theorem commitNow_fields (c : DBTableTransactionCommitter) (t : DbTable) :
    (commitNow c t).1.mTable = c.mTable ∧
    (commitNow c t).2.mTransactionCommitter = t.mTransactionCommitter := by
  unfold commitNow
  split
  · split <;> simp [DbTable.commit]
  · simp

theorem singleOwner_step (w w' : World) (e : Event) (hw : SingleOwner w)
    (hstep : step w e = some w') : SingleOwner w' := by
  cases e with
  | construct self onTable =>
    simp only [step] at hstep
    cases hl : w.live self with
    | some c0 => simp [hl] at hstep
    | none =>
      simp only [hl, Option.some.injEq] at hstep
      subst hstep
      intro i c hi hc
      by_cases hij : i = self
      · subst hij
        simp only [Function.update_same, Option.some.injEq] at hi
        subst hi
        unfold construct at hc ⊢
        cases onTable <;> cases hs : w.table.mTransactionCommitter <;> simp_all
      · simp only [Function.update_noteq hij] at hi
        have h := hw i c hi hc
        unfold construct
        cases onTable <;> simp [h]
  | beginOnce self =>
    simp only [step] at hstep
    cases hl : w.live self with
    | none => simp [hl] at hstep
    | some c0 =>
      simp only [hl, Option.some.injEq] at hstep
      subst hstep
      intro i c hi hc
      simp only [(beginOnce_fields c0 w.table).2]
      by_cases hij : i = self
      · subst hij
        simp only [Function.update_same, Option.some.injEq] at hi
        subst hi
        rw [(beginOnce_fields c0 w.table).1] at hc
        exact hw i c0 hl hc
      · simp only [Function.update_noteq hij] at hi
        exact hw i c hi hc
  | commitNow self =>
    simp only [step] at hstep
    cases hl : w.live self with
    | none => simp [hl] at hstep
    | some c0 =>
      simp only [hl, Option.some.injEq] at hstep
      subst hstep
      intro i c hi hc
      simp only [(commitNow_fields c0 w.table).2]
      by_cases hij : i = self
      · subst hij
        simp only [Function.update_same, Option.some.injEq] at hi
        subst hi
        rw [(commitNow_fields c0 w.table).1] at hc
        exact hw i c0 hl hc
      · simp only [Function.update_noteq hij] at hi
        exact hw i c hi hc
  | reset self =>
    simp only [step] at hstep
    cases hl : w.live self with
    | none => simp [hl] at hstep
    | some c0 =>
      simp only [hl, Option.some.injEq] at hstep
      subst hstep
      intro i c hi hc
      by_cases hij : i = self
      · subst hij
        simp only [Function.update_same, Option.some.injEq] at hi
        subst hi
        simp [reset] at hc
      · simp only [Function.update_noteq hij] at hi
        exact hw i c hi hc
  | destroy self =>
    simp only [step] at hstep
    cases hl : w.live self with
    | none => simp [hl] at hstep
    | some c0 =>
      simp only [hl, Option.some.injEq] at hstep
      subst hstep
      intro i c hi hc
      by_cases hij : i = self
      · subst hij
        simp at hi
      · simp only [Function.update_noteq hij] at hi
        have h := hw i c hi hc
        cases h0 : c0.mTable with
        | false => simpa [destroy, h0] using h
        | true =>
          have h2 := hw self c0 hl h0
          rw [h] at h2
          exact absurd (Option.some.inj h2) hij

theorem singleOwner_run (es : List Event) (w w' : World) (hw : SingleOwner w)
    (hrun : run w es = some w') : SingleOwner w' := by
  induction es generalizing w with
  | nil =>
    simp only [run, Option.some.injEq] at hrun
    exact hrun ▸ hw
  | cons e es ih =>
    simp only [run] at hrun
    cases hs : step w e with
    | none => simp [hs] at hrun
    | some w1 =>
      simp only [hs, Option.some_bind] at hrun
      exact ih w1 (singleOwner_step w w1 e hw hs) hrun

/-- C4: in every state reached from a fresh table by constructing, using
(`beginOnce`, `commitNow`, `reset`) and destroying committers in any order, two live
committers that both hold a non-null table pointer are the same object, and a live
committer that holds one is the committer recorded in the table's slot. -/
theorem single_owner_invariant (es : List Event) (w : World)
    (hrun : run World.init es = some w) :
    (∀ i j ci cj, w.live i = some ci → w.live j = some cj →
      ci.mTable = true → cj.mTable = true → i = j) ∧
    (∀ i c, w.live i = some c → c.mTable = true →
      w.table.mTransactionCommitter = some i) := by
  have h := singleOwner_run es World.init w singleOwner_init hrun
  refine ⟨?_, h⟩
  intro i j ci cj hi hj hci hcj
  have h1 := h i ci hi hci
  have h2 := h j cj hj hcj
  rw [h1] at h2
  exact Option.some.inj h2

theorem single_owner_invariant_witness :
    run World.init ownerScenario = some ownerScenarioEnd ∧
    (∀ i j ci cj, ownerScenarioEnd.live i = some ci → ownerScenarioEnd.live j = some cj →
      ci.mTable = true → cj.mTable = true → i = j) ∧
    (∀ i c, ownerScenarioEnd.live i = some c → c.mTable = true →
      ownerScenarioEnd.table.mTransactionCommitter = some i) :=
  ⟨rfl, single_owner_invariant ownerScenario ownerScenarioEnd rfl⟩

/-! ### Commit at the outermost scope -/

theorem outerShape_others_detached (base : List TableCall) (outer : Nat) (w : World) (b : Bool)
    (hw : OuterShape base outer w b) (i : Nat) (c : DBTableTransactionCommitter)
    (hi : w.live i = some c) (hne : i ≠ outer) : c.mTable = false := by
  obtain ⟨-, hslot, hso, -⟩ := hw
  cases hc : c.mTable with
  | false => rfl
  | true =>
    have h := hso i c hi hc
    rw [hslot] at h
    exact absurd (Option.some.inj h).symm hne

theorem outerShape_step (base : List TableCall) (outer : Nat) (w w' : World) (b : Bool)
    (e : Event) (hw : OuterShape base outer w b)
    (he : e ≠ Event.commitNow outer ∧ e ≠ Event.reset outer ∧ e ≠ Event.destroy outer)
    (hstep : step w e = some w') :
    ∃ b', OuterShape base outer w' b' ∧ (b = true → b' = true) ∧
      (e = Event.beginOnce outer → b' = true) := by
  have hso' := singleOwner_step w w' e hw.2.2.1 hstep
  have hdet := outerShape_others_detached base outer w b hw
  obtain ⟨hlive, hslot, hso, hcalls⟩ := hw
  cases e with
  | construct self onTable =>
    simp only [step] at hstep
    cases hl : w.live self with
    | some c0 => simp [hl] at hstep
    | none =>
      have hne : self ≠ outer := by
        intro h
        rw [h, hlive] at hl
        cases hl
      simp only [hl, Option.some.injEq] at hstep
      have hcon : construct self onTable w.table
          = ({ mTable := false, mStarted := false }, w.table) := by
        unfold construct
        cases onTable <;> simp [hslot]
      rw [hcon] at hstep
      subst hstep
      refine ⟨b, ⟨?_, hslot, hso', hcalls⟩, id, ?_⟩
      · simp only [Function.update_noteq (Ne.symm hne)]
        exact hlive
      · intro h
        cases h
  | beginOnce self =>
    simp only [step] at hstep
    cases hl : w.live self with
    | none => simp [hl] at hstep
    | some c0 =>
      simp only [hl, Option.some.injEq] at hstep
      by_cases hse : self = outer
      · subst hse
        rw [hlive] at hl
        cases hl
        cases b with
        | true =>
          have hb : beginOnce { mTable := true, mStarted := true } w.table
              = ({ mTable := true, mStarted := true }, w.table) := by
            simp [beginOnce]
          rw [hb] at hstep
          subst hstep
          exact ⟨true, ⟨by simp, hslot, hso', hcalls⟩, id, fun _ => rfl⟩
        | false =>
          have hb : beginOnce { mTable := true, mStarted := false } w.table
              = ({ mTable := true, mStarted := true }, w.table.begin) := by
            simp [beginOnce]
          rw [hb] at hstep
          subst hstep
          refine ⟨true, ⟨by simp, hslot, hso', ?_⟩, fun _ => rfl, fun _ => rfl⟩
          simpa [DbTable.begin] using hcalls
      · have hd := hdet self c0 hl hse
        have hb : beginOnce c0 w.table = (c0, w.table) := by
          simp [beginOnce, hd]
        rw [hb] at hstep
        subst hstep
        refine ⟨b, ⟨?_, hslot, hso', hcalls⟩, id, ?_⟩
        · simp only [Function.update_noteq (Ne.symm hse)]
          exact hlive
        · intro h
          cases h
          exact absurd rfl hse
  | commitNow self =>
    simp only [step] at hstep
    cases hl : w.live self with
    | none => simp [hl] at hstep
    | some c0 =>
      simp only [hl, Option.some.injEq] at hstep
      have hse : self ≠ outer := fun h => he.1 (by rw [h])
      have hd := hdet self c0 hl hse
      have hb : commitNow c0 w.table = (c0, w.table) := by
        simp [commitNow, hd]
      rw [hb] at hstep
      subst hstep
      refine ⟨b, ⟨?_, hslot, hso', hcalls⟩, id, ?_⟩
      · simp only [Function.update_noteq (Ne.symm hse)]
        exact hlive
      · intro h
        cases h
  | reset self =>
    simp only [step] at hstep
    cases hl : w.live self with
    | none => simp [hl] at hstep
    | some c0 =>
      simp only [hl, Option.some.injEq] at hstep
      have hse : self ≠ outer := fun h => he.2.1 (by rw [h])
      subst hstep
      refine ⟨b, ⟨?_, hslot, hso', hcalls⟩, id, ?_⟩
      · simp only [Function.update_noteq (Ne.symm hse)]
        exact hlive
      · intro h
        cases h
  | destroy self =>
    simp only [step] at hstep
    cases hl : w.live self with
    | none => simp [hl] at hstep
    | some c0 =>
      simp only [hl, Option.some.injEq] at hstep
      have hse : self ≠ outer := fun h => he.2.2 (by rw [h])
      have hd := hdet self c0 hl hse
      have hb : destroy c0 w.table = w.table := by
        simp [destroy, hd]
      rw [hb] at hstep
      subst hstep
      refine ⟨b, ⟨?_, hslot, hso', hcalls⟩, id, ?_⟩
      · simp only [Function.update_noteq (Ne.symm hse)]
        exact hlive
      · intro h
        cases h

theorem outerShape_run (base : List TableCall) (outer : Nat) (es : List Event)
    (w w' : World) (b : Bool) (hw : OuterShape base outer w b)
    (hes : ∀ e ∈ es,
      e ≠ Event.commitNow outer ∧ e ≠ Event.reset outer ∧ e ≠ Event.destroy outer)
    (hrun : run w es = some w') :
    ∃ b', OuterShape base outer w' b' ∧ (b = true → b' = true) ∧
      (Event.beginOnce outer ∈ es → b' = true) := by
  induction es generalizing w b with
  | nil =>
    simp only [run, Option.some.injEq] at hrun
    subst hrun
    exact ⟨b, hw, id, fun h => by cases h⟩
  | cons e es ih =>
    simp only [run] at hrun
    cases hs : step w e with
    | none => simp [hs] at hrun
    | some w1 =>
      simp only [hs, Option.some_bind] at hrun
      obtain ⟨b1, h1, h1b, h1e⟩ :=
        outerShape_step base outer w w1 b e hw (hes e (List.mem_cons_self _ _)) hs
      obtain ⟨b2, h2, h2b, h2e⟩ :=
        ih w1 b1 h1 (fun x hx => hes x (List.mem_cons_of_mem _ hx)) hrun
      refine ⟨b2, h2, fun hb => h2b (h1b hb), ?_⟩
      intro hmem
      rcases List.mem_cons.1 hmem with hmem | hmem
      · exact h2b (h1e hmem.symm)
      · exact h2e hmem

/-- C2 (as amended): let `outer` be constructed on a table whose slot is empty, and let any
events follow in which other committers are constructed, used and destroyed and in which
`outer` calls `beginOnce` at least once but is neither committed explicitly, reset nor
destroyed. Then the calls made on the table so far are exactly one `begin` and the slot holds
`outer`; destroying `outer` then makes exactly one further call, `commit`, and empties the
slot. So over all the lifetimes `begin` and `commit` are each called once, the commit by the
destructor of the outermost committer. -/
theorem commit_once_at_outermost_scope (w0 w : World) (outer : Nat) (es : List Event)
    (hinv : SingleOwner w0)
    (hslot : w0.table.mTransactionCommitter = none)
    (hes : ∀ e ∈ es,
      e ≠ Event.commitNow outer ∧ e ≠ Event.reset outer ∧ e ≠ Event.destroy outer)
    (hbegin : Event.beginOnce outer ∈ es)
    (hrun : run w0 (Event.construct outer true :: es) = some w) :
    w.table.calls = w0.table.calls ++ [TableCall.begin] ∧
    w.table.mTransactionCommitter = some outer ∧
    ∃ w', step w (Event.destroy outer) = some w' ∧
      w'.table.calls = w0.table.calls ++ [TableCall.begin, TableCall.commit] ∧
      w'.table.mTransactionCommitter = none ∧
      w'.live outer = none := by
  simp only [run] at hrun
  cases hs : step w0 (Event.construct outer true) with
  | none => simp [hs] at hrun
  | some w1 =>
    simp only [hs, Option.some_bind] at hrun
    have hso1 := singleOwner_step w0 w1 _ hinv hs
    have h1 : OuterShape w0.table.calls outer w1 false := by
      simp only [step] at hs
      cases hl : w0.live outer with
      | some c0 => simp [hl] at hs
      | none =>
        simp only [hl, Option.some.injEq] at hs
        subst hs
        refine ⟨?_, ?_, hso1, ?_⟩ <;> simp [construct, hslot]
    obtain ⟨b, hb, -, hbe⟩ := outerShape_run w0.table.calls outer es w1 w false h1 hes hrun
    have hbt := hbe hbegin
    subst hbt
    obtain ⟨hlive, hsl, -, hcalls⟩ := hb
    refine ⟨by simpa using hcalls, hsl, ?_⟩
    refine ⟨{ table := destroy { mTable := true, mStarted := true } w.table,
              live := Function.update w.live outer none }, ?_, ?_, ?_, ?_⟩
    · simp [step, hlive]
    · simp [destroy, commitNow, DbTable.commit, hcalls]
    · simp [destroy]
    · simp

theorem commit_once_at_outermost_scope_witness :
    run World.init (Event.construct 1 true :: commitScenario) = some commitScenarioEnd ∧
    commitScenarioEnd.table.calls = World.init.table.calls ++ [TableCall.begin] ∧
    commitScenarioEnd.table.mTransactionCommitter = some 1 ∧
    ∃ w', step commitScenarioEnd (Event.destroy 1) = some w' ∧
      w'.table.calls = World.init.table.calls ++ [TableCall.begin, TableCall.commit] ∧
      w'.table.mTransactionCommitter = none ∧
      w'.live 1 = none :=
  ⟨rfl, commit_once_at_outermost_scope World.init commitScenarioEnd 1 commitScenario
    singleOwner_init rfl (by decide) (by decide) rfl⟩

/-- C2 as stated fails: committer 1 registers as the outermost committer on a fresh table,
calls `beginOnce` and no `commitNow` is ever called, but it is `reset` before it is destroyed.
After its destruction the table has received one `begin` and no `commit`, and the slot still
holds its address. -/
theorem commit_once_fails_after_reset :
    run World.init resetScenario = some resetScenarioEnd ∧
    Event.beginOnce 1 ∈ resetScenario ∧
    resetScenario.any Event.isCommitNow = false ∧
    resetScenarioEnd.live 1 = none ∧
    resetScenarioEnd.table.calls = [TableCall.begin] ∧
    resetScenarioEnd.table.calls.count TableCall.commit = 0 ∧
    resetScenarioEnd.table.mTransactionCommitter = some 1 := by
  refine ⟨rfl, by decide, by decide, by decide, by decide, by decide, by decide⟩

/-! ### Root nodes -/

/-- C5: `Rootnodes::isRootNode(h)` is true exactly when `h` is the files, the vault or the
rubbish root handle stored in the record, and false for every other handle. The function
only reads the record. -/
theorem isRootNode_iff (r : Rootnodes) (h : NodeHandle) :
    (r.isRootNode h = true ↔ h = r.files ∨ h = r.vault ∨ h = r.rubbish) ∧
    (r.isRootNode h = false ↔ h ≠ r.files ∧ h ≠ r.vault ∧ h ≠ r.rubbish) := by
  unfold Rootnodes.isRootNode
  constructor
  · simp [or_assoc]
  · simp [and_assoc]

/-! ### Notification queue -/

theorem firstOccurrences_filter (p : NodeHandle → Bool) (l : List NodeHandle) :
    firstOccurrences (l.filter p) = (firstOccurrences l).filter p := by
  induction l with
  | nil => rfl
  | cons x xs ih =>
    by_cases hx : p x = true
    · simp only [List.filter_cons_of_pos hx, firstOccurrences, ih, List.filter_filter]
      congr 1
      apply List.filter_congr
      intro a _
      exact Bool.and_comm _ _
    · simp only [List.filter_cons_of_neg hx, firstOccurrences, ih, List.filter_filter]
      apply List.filter_congr
      intro a _
      by_cases ha : a = x
      · subst ha
        simp [hx]
      · simp [ha]

theorem notifyNode_foldl_queue (hs : List NodeHandle) (q : NotifyQueue) :
    (hs.foldl NotifyQueue.notifyNode q).mNodeNotify
      = q.mNodeNotify ++ firstOccurrences (hs.filter fun h => decide (h ∉ q.mNodeNotify)) := by
  induction hs generalizing q with
  | nil => simp [firstOccurrences]
  | cons h hs ih =>
    rw [List.foldl_cons, ih]
    by_cases hq : h ∈ q.mNodeNotify
    · simp [NotifyQueue.notifyNode, hq]
    · have h1 : (q.notifyNode h).mNodeNotify = q.mNodeNotify ++ [h] := by
        simp [NotifyQueue.notifyNode, hq]
      have h2 : (hs.filter fun x => decide (x ∉ q.mNodeNotify ++ [h]))
          = (hs.filter fun x => decide (x ∉ q.mNodeNotify)).filter (fun x => x ≠ h) := by
        rw [List.filter_filter]
        apply List.filter_congr
        intro a _
        by_cases ha : a = h <;> simp [ha]
      rw [h1, h2, firstOccurrences_filter]
      simp [hq, firstOccurrences]

theorem queueOk_notifyNode (q : NotifyQueue) (h : NodeHandle) (hq : QueueOk q) :
    QueueOk (q.notifyNode h) := by
  obtain ⟨hnd, hdirty⟩ := hq
  constructor
  · by_cases hm : h ∈ q.mNodeNotify
    · simpa [NotifyQueue.notifyNode, hm] using hnd
    · simp only [NotifyQueue.notifyNode, hm, if_false]
      rw [List.nodup_append]
      refine ⟨hnd, List.nodup_singleton h, ?_⟩
      intro a ha hb
      rw [List.mem_singleton] at hb
      exact hm (hb ▸ ha)
  · intro x hx
    by_cases hxh : x = h
    · subst hxh
      simp [NotifyQueue.notifyNode]
    · have hx2 : x ∈ q.mNodeNotify := by
        by_cases hm : h ∈ q.mNodeNotify
        · simpa [NotifyQueue.notifyNode, hm] using hx
        · simp only [NotifyQueue.notifyNode, hm, if_false, List.mem_append,
            List.mem_singleton] at hx
          exact hx.resolve_right hxh
      simpa [NotifyQueue.notifyNode, Function.update_noteq hxh] using hdirty x hx2

theorem queueOk_notifyPurge (serialize : NodeHandle → String) (writeOk : NodeHandle → Bool)
    (q : NotifyQueue) (t : DBTableNodes) (hq : QueueOk q) :
    QueueOk (NotifyQueue.notifyPurge serialize writeOk q t).1 := by
  unfold NotifyQueue.notifyPurge
  split
  · exact ⟨List.nodup_nil, fun h hh => by cases hh⟩
  · exact hq

theorem queueOk_batchRun (serialize : NodeHandle → String) (ops : List BatchOp)
    (s : NotifyQueue × DBTableNodes) (hq : QueueOk s.1) :
    QueueOk (batchRun serialize s ops).1 := by
  induction ops generalizing s with
  | nil => exact hq
  | cons op ops ih =>
    apply ih
    cases op with
    | notifyNode h => exact queueOk_notifyNode s.1 h hq
    | notifyPurge failing => exact queueOk_notifyPurge serialize _ s.1 s.2 hq

/-- C10: in every state `s` reached from an empty queue by `notifyNode` and `notifyPurge`
calls (failing or not), the queue holds no handle twice and every queued node is dirty;
`notifyNode h` sets the dirty flag of `h`, leaves the queue unchanged when `h` is queued and
appends `h` at the end otherwise; and notifying the handles `hs` one after the other appends
to the queue the handles of `hs` not yet queued, each once, in the order in which they were
first notified. -/
theorem notify_queue_deduplicated (serialize : NodeHandle → String) (t0 : DBTableNodes)
    (ops : List BatchOp) :
    let s := batchRun serialize (NotifyQueue.empty, t0) ops
    s.1.mNodeNotify.Nodup ∧
    (∀ h ∈ s.1.mNodeNotify, s.1.changed h = true) ∧
    (∀ h, (s.1.notifyNode h).changed h = true ∧
      (h ∈ s.1.mNodeNotify → (s.1.notifyNode h).mNodeNotify = s.1.mNodeNotify) ∧
      (h ∉ s.1.mNodeNotify → (s.1.notifyNode h).mNodeNotify = s.1.mNodeNotify ++ [h])) ∧
    (∀ hs : List NodeHandle,
      (hs.foldl NotifyQueue.notifyNode s.1).mNodeNotify
        = s.1.mNodeNotify
          ++ firstOccurrences (hs.filter fun h => decide (h ∉ s.1.mNodeNotify))) := by
  intro s
  have hq : QueueOk s.1 :=
    queueOk_batchRun serialize ops (NotifyQueue.empty, t0)
      ⟨List.nodup_nil, fun h hh => by cases hh⟩
  refine ⟨hq.1, hq.2, ?_, fun hs => notifyNode_foldl_queue hs s.1⟩
  intro h
  refine ⟨by simp [NotifyQueue.notifyNode], ?_, ?_⟩
  · intro hm
    simp [NotifyQueue.notifyNode, hm]
  · intro hm
    simp [NotifyQueue.notifyNode, hm]

/-! ### notifyPurge -/

theorem fingerprintStep_loaded (c : FingerprintContainer) (op : FingerprintOp)
    (fp : FileFingerprint) (h : fp ∈ c.mAllFingerprintsLoaded) :
    fp ∈ (fingerprintStep c op).mAllFingerprintsLoaded := by
  cases op with
  | insertFingerprint fp1 h1 =>
    simp only [fingerprintStep, FingerprintContainer.insertFingerprint]
    split <;> exact h
  | removeFingerprint fp1 h1 => exact h
  | getNodesByFingerprint stored fp1 =>
    simp only [fingerprintStep, FingerprintContainer.getNodesByFingerprint]
    split
    · exact h
    · exact List.mem_cons_of_mem _ h

theorem fingerprintRun_loaded (ops : List FingerprintOp) (c : FingerprintContainer)
    (fp : FileFingerprint) (h : fp ∈ c.mAllFingerprintsLoaded) :
    fp ∈ (fingerprintRun c ops).mAllFingerprintsLoaded := by
  induction ops generalizing c with
  | nil => exact h
  | cons op ops ih => exact ih _ (fingerprintStep_loaded c op fp h)

theorem getNodesByFingerprint_of_loaded (stored : List (FileFingerprint × NodeHandle))
    (c : FingerprintContainer) (fp : FileFingerprint) (h : fp ∈ c.mAllFingerprintsLoaded) :
    c.getNodesByFingerprint stored fp = (c.nodesWith fp, c) := by
  simp [FingerprintContainer.getNodesByFingerprint,
    FingerprintContainer.allFingerprintsAreLoaded, h]

theorem mem_nodesWith (c : FingerprintContainer) (fp : FileFingerprint) (h : NodeHandle) :
    h ∈ c.nodesWith fp ↔ (fp, h) ∈ c.index := by
  unfold FingerprintContainer.nodesWith
  rw [List.mem_map]
  constructor
  · rintro ⟨e, he, rfl⟩
    rw [List.mem_filter] at he
    have h1 : e.1 = fp := by simpa using he.2
    rw [← h1]
    exact he.1
  · intro hm
    exact ⟨(fp, h), List.mem_filter.2 ⟨hm, by simp⟩, rfl⟩

/-- C8: a `getNodesByFingerprint(fp)` on a fingerprint not marked fully-loaded issues
exactly one storage query and marks `fp` fully-loaded, whatever the storage holds (also
nothing that matches). After it, and after any further insertions, removals and lookups,
a `getNodesByFingerprint(fp)` issues no storage query, whatever the storage holds then,
changes nothing and returns exactly the nodes the index records with the fingerprint `fp`. -/
theorem fingerprint_lookup_cached (stored later : List (FileFingerprint × NodeHandle))
    (c : FingerprintContainer) (fp : FileFingerprint) (ops : List FingerprintOp)
    (hnew : fp ∉ c.mAllFingerprintsLoaded) :
    (c.getNodesByFingerprint stored fp).2.queries = c.queries + 1 ∧
    fp ∈ (c.getNodesByFingerprint stored fp).2.mAllFingerprintsLoaded ∧
    ((fingerprintRun (c.getNodesByFingerprint stored fp).2 ops).getNodesByFingerprint
        later fp).2.queries
      = (fingerprintRun (c.getNodesByFingerprint stored fp).2 ops).queries ∧
    ((fingerprintRun (c.getNodesByFingerprint stored fp).2 ops).getNodesByFingerprint
        later fp).2
      = fingerprintRun (c.getNodesByFingerprint stored fp).2 ops ∧
    ∀ h, h ∈ ((fingerprintRun (c.getNodesByFingerprint stored fp).2 ops).getNodesByFingerprint
        later fp).1
      ↔ (fp, h) ∈ (fingerprintRun (c.getNodesByFingerprint stored fp).2 ops).index := by
  have hq : (c.getNodesByFingerprint stored fp).2.queries = c.queries + 1 := by
    simp [FingerprintContainer.getNodesByFingerprint,
      FingerprintContainer.allFingerprintsAreLoaded, hnew,
      FingerprintContainer.setAllFingerprintLoaded]
  have hl : fp ∈ (c.getNodesByFingerprint stored fp).2.mAllFingerprintsLoaded := by
    simp [FingerprintContainer.getNodesByFingerprint,
      FingerprintContainer.allFingerprintsAreLoaded, hnew,
      FingerprintContainer.setAllFingerprintLoaded]
  have hl2 := fingerprintRun_loaded ops _ fp hl
  rw [getNodesByFingerprint_of_loaded later _ fp hl2]
  exact ⟨hq, hl, rfl, rfl, fun h => mem_nodesWith _ fp h⟩

theorem fingerprint_lookup_cached_witness :
    (fingerprintStart.getNodesByFingerprint fingerprintStored fingerprintA).1 = [⟨1⟩, ⟨2⟩] ∧
    (fingerprintEnd.getNodesByFingerprint [] fingerprintA).1 = [⟨2⟩, ⟨4⟩] ∧
    fingerprintEnd.queries = 2 ∧
    (fingerprintStart.getNodesByFingerprint fingerprintStored fingerprintA).2.queries
      = fingerprintStart.queries + 1 ∧
    fingerprintA ∈ (fingerprintStart.getNodesByFingerprint fingerprintStored
      fingerprintA).2.mAllFingerprintsLoaded ∧
    (fingerprintEnd.getNodesByFingerprint [] fingerprintA).2.queries = fingerprintEnd.queries ∧
    (fingerprintEnd.getNodesByFingerprint [] fingerprintA).2 = fingerprintEnd ∧
    ∀ h, h ∈ (fingerprintEnd.getNodesByFingerprint [] fingerprintA).1
      ↔ (fingerprintA, h) ∈ fingerprintEnd.index :=
  ⟨by decide, by decide, by decide,
    fingerprint_lookup_cached fingerprintStored [] fingerprintStart fingerprintA
      fingerprintLater (by decide)⟩

/-! ### Out-of-order ingestion -/

theorem getNodeInRAM_isSome_iff (nm : NodeManager) (h : NodeHandle) :
    (nm.getNodeInRAM h).isSome = true ↔ ∃ e ∈ edges nm, e.1 = h := by
  unfold NodeManager.getNodeInRAM edges
  rw [List.find?_isSome]
  simp

theorem getNodeInRAM_eq_none_iff (nm : NodeManager) (h : NodeHandle) :
    nm.getNodeInRAM h = none ↔ ∀ e ∈ edges nm, e.1 ≠ h := by
  unfold NodeManager.getNodeInRAM edges
  rw [List.find?_eq_none]
  simp

theorem edges_modifyNode_counter (nm : NodeManager) (h : NodeHandle)
    (f : NodeManagerNode → NodeManagerNode)
    (hf : ∀ r, (f r).node = r.node ∧ (f r).parent = r.parent) :
    edges (nm.modifyNode h f) = edges nm := by
  unfold edges NodeManager.modifyNode
  rw [List.map_map]
  apply List.map_congr_left
  intro r _
  by_cases hr : r.node.handle = h
  · subst hr
    simp [(hf r).1, (hf r).2]
  · simp [hr]

theorem edges_updateTreeCounterWalk (nc : NodeCounter) (operation : OperationType)
    (fuel : Nat) (nm : NodeManager) (origin : Option NodeHandle) :
    edges (NodeManager.updateTreeCounterWalk nc operation fuel nm origin) = edges nm := by
  induction fuel generalizing nm origin with
  | zero => rfl
  | succ fuel ih =>
    cases origin with
    | none => rfl
    | some h =>
      unfold NodeManager.updateTreeCounterWalk
      cases hr : nm.getNodeInRAM h with
      | none => rfl
      | some r =>
        simp only
        rw [ih]
        exact edges_modifyNode_counter nm h _ (fun r => ⟨rfl, rfl⟩)

theorem edges_updateCounter (nm : NodeManager) (n : NodeHandle) (oldParent : Option NodeHandle) :
    edges (nm.updateCounter n oldParent) = edges nm := by
  unfold NodeManager.updateCounter
  cases hr : nm.getNodeInRAM n with
  | none => rfl
  | some r =>
    simp only [NodeManager.updateTreeCounter]
    rw [edges_updateTreeCounterWalk, edges_updateTreeCounterWalk]

theorem edges_wire (nm : NodeManager) (child parent : NodeHandle) :
    edges (nm.wire child parent)
      = (edges nm).map fun e => if e.1 = child then (e.1, some parent) else e := by
  unfold NodeManager.wire
  rw [edges_updateCounter]
  unfold edges NodeManager.modifyNode
  rw [List.map_map, List.map_map]
  apply List.map_congr_left
  intro r _
  by_cases hr : r.node.handle = child <;> simp [hr]

theorem childrenInRAM_handles (nm : NodeManager) (parent : NodeHandle) :
    (nm.childrenInRAM parent).map (fun c => c.node.handle)
      = ((edges nm).filter fun e => decide (e.2 = some parent)).map Prod.fst := by
  unfold NodeManager.childrenInRAM edges
  rw [List.filter_map, List.map_map]
  rfl

theorem waiting_nil (p : NodeHandle) : MissingParentNodes.waiting [] p = [] := rfl

theorem waiting_cons (k : NodeHandle) (l : List NodeHandle) (m : MissingParentNodes)
    (p : NodeHandle) :
    MissingParentNodes.waiting ((k, l) :: m) p
      = if k = p then l else MissingParentNodes.waiting m p := by
  unfold MissingParentNodes.waiting
  by_cases h : k = p <;> simp [List.find?_cons, h]

theorem waiting_mem_entry (m : MissingParentNodes) (k x : NodeHandle)
    (hx : x ∈ MissingParentNodes.waiting m k) : ∃ e ∈ m, e.1 = k ∧ x ∈ e.2 := by
  induction m with
  | nil => simp [waiting_nil] at hx
  | cons e m ih =>
    obtain ⟨k1, l1⟩ := e
    rw [waiting_cons] at hx
    by_cases h : k1 = k
    · rw [if_pos h] at hx
      exact ⟨(k1, l1), List.mem_cons_self _ _, h, hx⟩
    · rw [if_neg h] at hx
      obtain ⟨e, he, h1, h2⟩ := ih hx
      exact ⟨e, List.mem_cons_of_mem _ he, h1, h2⟩

theorem waiting_map (m : MissingParentNodes) (f : NodeHandle × List NodeHandle →
    NodeHandle × List NodeHandle) (hf : ∀ e, (f e).1 = e.1) (k x : NodeHandle)
    (hmono : ∀ e, x ∈ e.2 → x ∈ (f e).2)
    (hx : x ∈ MissingParentNodes.waiting m k) :
    x ∈ MissingParentNodes.waiting (m.map f) k := by
  induction m with
  | nil => simp [waiting_nil] at hx
  | cons e m ih =>
    obtain ⟨k1, l1⟩ := e
    rw [waiting_cons] at hx
    have hfe : f (k1, l1) = (k1, (f (k1, l1)).2) := Prod.ext (hf _) rfl
    rw [List.map_cons, hfe, waiting_cons]
    by_cases h : k1 = k
    · rw [if_pos h] at hx ⊢
      exact hmono (k1, l1) hx
    · rw [if_neg h] at hx ⊢
      exact ih hx

theorem waiting_append_of_mem (m m' : MissingParentNodes) (k x : NodeHandle)
    (hx : x ∈ MissingParentNodes.waiting m k) :
    x ∈ MissingParentNodes.waiting (m ++ m') k := by
  induction m with
  | nil => simp [waiting_nil] at hx
  | cons e m ih =>
    obtain ⟨k1, l1⟩ := e
    rw [waiting_cons] at hx
    rw [List.cons_append, waiting_cons]
    by_cases h : k1 = k
    · rw [if_pos h] at hx ⊢
      exact hx
    · rw [if_neg h] at hx ⊢
      exact ih hx

theorem waiting_append_of_no_entry (m m' : MissingParentNodes) (k : NodeHandle)
    (hno : MissingParentNodes.hasEntry m k = false) :
    MissingParentNodes.waiting (m ++ m') k = MissingParentNodes.waiting m' k := by
  induction m with
  | nil => rfl
  | cons e m ih =>
    obtain ⟨k1, l1⟩ := e
    simp only [MissingParentNodes.hasEntry, List.any_cons, Bool.or_eq_false_iff,
      decide_eq_false_iff_not] at hno
    rw [List.cons_append, waiting_cons, if_neg hno.1]
    exact ih hno.2

theorem waiting_record_mono (m : MissingParentNodes) (q y k x : NodeHandle)
    (hx : x ∈ MissingParentNodes.waiting m k) :
    x ∈ MissingParentNodes.waiting (MissingParentNodes.record m q y) k := by
  unfold MissingParentNodes.record
  split
  · apply waiting_map m _ _ k x _ hx
    · intro e
      split <;> rfl
    · intro e he
      split
      · exact List.mem_append_left _ he
      · exact he
  · exact waiting_append_of_mem m _ k x hx

theorem waiting_record_map (m : MissingParentNodes) (p c : NodeHandle)
    (hE : MissingParentNodes.hasEntry m p = true) :
    c ∈ MissingParentNodes.waiting
      (m.map fun e => if e.1 = p ∧ c ∉ e.2 then (e.1, e.2 ++ [c]) else e) p := by
  induction m with
  | nil => simp [MissingParentNodes.hasEntry] at hE
  | cons e m ih =>
    obtain ⟨k1, l1⟩ := e
    by_cases h : k1 = p
    · subst h
      by_cases hc : c ∈ l1
      · simp [waiting_cons, hc]
      · simp [waiting_cons, hc]
    · have hn : ¬ (k1 = p ∧ c ∉ l1) := fun hh => h hh.1
      simp only [MissingParentNodes.hasEntry, List.any_cons, h, decide_False,
        Bool.false_or] at hE
      simp only [List.map_cons, hn, if_false, waiting_cons, if_neg h]
      exact ih hE

theorem waiting_record_self (m : MissingParentNodes) (p c : NodeHandle) :
    c ∈ MissingParentNodes.waiting (MissingParentNodes.record m p c) p := by
  unfold MissingParentNodes.record
  by_cases hE : MissingParentNodes.hasEntry m p = true
  · rw [if_pos hE]
    exact waiting_record_map m p c hE
  · simp only [Bool.not_eq_true] at hE
    rw [if_neg (by simp [hE]), waiting_append_of_no_entry m _ p hE, waiting_cons]
    simp

theorem mem_record_entry (m : MissingParentNodes) (q y x : NodeHandle)
    (e : NodeHandle × List NodeHandle)
    (he : e ∈ MissingParentNodes.record m q y) (hx : x ∈ e.2) :
    (x = y ∧ e.1 = q) ∨ ∃ e0 ∈ m, e0.1 = e.1 ∧ x ∈ e0.2 := by
  unfold MissingParentNodes.record at he
  split at he
  · rw [List.mem_map] at he
    obtain ⟨e0, he0, hfe⟩ := he
    split at hfe
    next hcond =>
      subst hfe
      simp only [List.mem_append, List.mem_singleton] at hx
      rcases hx with hx | hx
      · exact Or.inr ⟨e0, he0, rfl, hx⟩
      · exact Or.inl ⟨hx, hcond.1⟩
    next =>
      subst hfe
      exact Or.inr ⟨e0, he0, rfl, hx⟩
  · rw [List.mem_append, List.mem_singleton] at he
    rcases he with he | he
    · exact Or.inr ⟨e, he, rfl, hx⟩
    · subst he
      simp only [List.mem_singleton] at hx
      exact Or.inl ⟨hx, rfl⟩

theorem waiting_erase_ne (m : MissingParentNodes) (k p : NodeHandle) (h : k ≠ p) :
    MissingParentNodes.waiting (MissingParentNodes.erase m k) p
      = MissingParentNodes.waiting m p := by
  induction m with
  | nil => rfl
  | cons e m ih =>
    obtain ⟨k1, l1⟩ := e
    unfold MissingParentNodes.erase at ih ⊢
    by_cases h1 : k1 = k
    · subst h1
      simp only [List.filter_cons, ne_eq, not_true_eq_false, decide_False, Bool.false_eq_true,
        if_false, waiting_cons, if_neg h]
      exact ih
    · simp only [List.filter_cons, ne_eq, h1, not_false_eq_true, decide_True, if_true,
        waiting_cons]
      rw [ih]

theorem mem_erase_entry (m : MissingParentNodes) (k : NodeHandle)
    (e : NodeHandle × List NodeHandle) :
    e ∈ MissingParentNodes.erase m k ↔ e ∈ m ∧ e.1 ≠ k := by
  unfold MissingParentNodes.erase
  simp [List.mem_filter]

theorem hasEntry_erase (m : MissingParentNodes) (k : NodeHandle) :
    MissingParentNodes.hasEntry (MissingParentNodes.erase m k) k = false ∧
    MissingParentNodes.waiting (MissingParentNodes.erase m k) k = [] := by
  have h1 : MissingParentNodes.hasEntry (MissingParentNodes.erase m k) k = false := by
    unfold MissingParentNodes.hasEntry MissingParentNodes.erase
    rw [List.any_eq_false]
    intro e he
    rw [List.mem_filter] at he
    simpa using he.2
  refine ⟨h1, ?_⟩
  cases hw : MissingParentNodes.waiting (MissingParentNodes.erase m k) k with
  | nil => rfl
  | cons x xs =>
    obtain ⟨e, he, hk, -⟩ := waiting_mem_entry (MissingParentNodes.erase m k) k x
      (by rw [hw]; exact List.mem_cons_self _ _)
    rw [mem_erase_entry] at he
    exact absurd hk he.2

theorem edges_insertNode (nm : NodeManager) (n : Node) :
    edges (nm.insertNode n) = edges nm ++ [(n.handle, none)] := by
  simp [edges, NodeManager.insertNode]

theorem mem_edges_wire (nm : NodeManager) (w h : NodeHandle)
    (e : NodeHandle × Option NodeHandle) :
    e ∈ edges (nm.wire w h)
      ↔ ∃ e0 ∈ edges nm, e = if e0.1 = w then (e0.1, some h) else e0 := by
  rw [edges_wire, List.mem_map]
  constructor
  · rintro ⟨e0, h0, h1⟩
    exact ⟨e0, h0, h1.symm⟩
  · rintro ⟨e0, h0, h1⟩
    exact ⟨e0, h0, h1.symm⟩

theorem wire_keys (nm : NodeManager) (w h k : NodeHandle) :
    (∃ e ∈ edges (nm.wire w h), e.1 = k) ↔ ∃ e ∈ edges nm, e.1 = k := by
  constructor
  · rintro ⟨e, he, hk⟩
    obtain ⟨e0, h0, h1⟩ := (mem_edges_wire nm w h e).1 he
    refine ⟨e0, h0, ?_⟩
    rw [← hk, h1]
    split <;> rfl
  · rintro ⟨e0, h0, hk⟩
    refine ⟨_, (mem_edges_wire nm w h _).2 ⟨e0, h0, rfl⟩, ?_⟩
    rw [← hk]
    split <;> rfl

theorem wire_other (nm : NodeManager) (w h c : NodeHandle) (o : Option NodeHandle)
    (hwc : w ≠ c) (hc : ∀ e ∈ edges nm, e.1 = c → e.2 = o) :
    ∀ e ∈ edges (nm.wire w h), e.1 = c → e.2 = o := by
  intro e he hk
  obtain ⟨e0, h0, h1⟩ := (mem_edges_wire nm w h e).1 he
  by_cases h2 : e0.1 = w
  · rw [if_pos h2] at h1
    subst h1
    exact absurd (h2.symm.trans hk) hwc
  · rw [if_neg h2] at h1
    subst h1
    exact hc e h0 hk

theorem wire_self (nm : NodeManager) (c h : NodeHandle) :
    ∀ e ∈ edges (nm.wire c h), e.1 = c → e.2 = some h := by
  intro e he hk
  obtain ⟨e0, h0, h1⟩ := (mem_edges_wire nm c h e).1 he
  by_cases h2 : e0.1 = c
  · rw [if_pos h2] at h1
    subst h1
    rfl
  · rw [if_neg h2] at h1
    subst h1
    exact absurd hk h2

theorem wire_keeps (nm : NodeManager) (w h c : NodeHandle)
    (hc : ∀ e ∈ edges nm, e.1 = c → e.2 = some h) :
    ∀ e ∈ edges (nm.wire w h), e.1 = c → e.2 = some h := by
  by_cases hwc : w = c
  · subst hwc
    exact wire_self nm w h
  · exact wire_other nm w h c (some h) hwc hc

theorem resolveWaiting_induct (Q : NodeManager → Prop) (h : NodeHandle)
    (ws : List NodeHandle) (hstep : ∀ nm w, w ∈ ws → Q nm → Q (nm.wire w h))
    (nm : NodeManager) (h0 : Q nm) : Q (nm.resolveWaiting h ws) := by
  induction ws generalizing nm with
  | nil => exact h0
  | cons w ws ih =>
    unfold NodeManager.resolveWaiting
    rw [List.foldl_cons]
    exact ih (fun nm1 w1 hw1 hq => hstep nm1 w1 (List.mem_cons_of_mem _ hw1) hq) _
      (hstep nm w (List.mem_cons_self _ _) h0)

theorem resolveWaiting_wires (nm : NodeManager) (h c : NodeHandle) (ws : List NodeHandle)
    (hc : c ∈ ws) : ∀ e ∈ edges (nm.resolveWaiting h ws), e.1 = c → e.2 = some h := by
  induction ws generalizing nm with
  | nil => cases hc
  | cons w ws ih =>
    unfold NodeManager.resolveWaiting
    rw [List.foldl_cons]
    by_cases hwc : w = c
    · subst hwc
      exact resolveWaiting_induct (fun x => ∀ e ∈ edges x, e.1 = w → e.2 = some h) h ws
        (fun nm1 w1 _ hq => wire_keeps nm1 w1 h w hq) _ (wire_self nm w h)
    · rcases List.mem_cons.1 hc with hc | hc
      · exact absurd hc.symm hwc
      · exact ih _ hc

theorem attachToParent_keys (nm : NodeManager) (n : Node) (m : MissingParentNodes)
    (k : NodeHandle) :
    (∃ e ∈ edges (nm.attachToParent n m).1, e.1 = k) ↔ ∃ e ∈ edges nm, e.1 = k := by
  unfold NodeManager.attachToParent
  cases n.parentHandle with
  | none => rfl
  | some q =>
    simp only
    split
    · exact wire_keys nm n.handle q k
    · rfl

theorem attachToParent_other (nm : NodeManager) (n : Node) (m : MissingParentNodes)
    (c : NodeHandle) (o : Option NodeHandle) (hnc : n.handle ≠ c)
    (hc : ∀ e ∈ edges nm, e.1 = c → e.2 = o) :
    ∀ e ∈ edges (nm.attachToParent n m).1, e.1 = c → e.2 = o := by
  unfold NodeManager.attachToParent
  cases n.parentHandle with
  | none => exact hc
  | some q =>
    simp only
    split
    · exact wire_other nm n.handle q c o hnc hc
    · exact hc

theorem attachToParent_waiting (nm : NodeManager) (n : Node) (m : MissingParentNodes)
    (c p : NodeHandle) (hw : c ∈ MissingParentNodes.waiting m p) :
    c ∈ MissingParentNodes.waiting (nm.attachToParent n m).2 p := by
  unfold NodeManager.attachToParent
  cases n.parentHandle with
  | none => exact hw
  | some q =>
    simp only
    split
    · exact hw
    · exact waiting_record_mono m q n.handle p c hw

theorem attachToParent_entries (nm : NodeManager) (n : Node) (m : MissingParentNodes)
    (c p : NodeHandle) (hnc : n.handle ≠ c) (hm : ∀ e ∈ m, c ∈ e.2 → e.1 = p) :
    ∀ e ∈ (nm.attachToParent n m).2, c ∈ e.2 → e.1 = p := by
  unfold NodeManager.attachToParent
  cases n.parentHandle with
  | none => exact hm
  | some q =>
    simp only
    split
    · exact hm
    · intro e he hce
      rcases mem_record_entry m q n.handle c e he hce with h1 | ⟨e0, he0, hk, hc0⟩
      · exact absurd h1.1.symm hnc
      · rw [← hk]
        exact hm e0 he0 hc0

theorem resolveWaiting_keys (nm : NodeManager) (h : NodeHandle) (ws : List NodeHandle)
    (k : NodeHandle) :
    (∃ e ∈ edges (nm.resolveWaiting h ws), e.1 = k) ↔ ∃ e ∈ edges nm, e.1 = k := by
  induction ws generalizing nm with
  | nil => rfl
  | cons w ws ih =>
    unfold NodeManager.resolveWaiting
    rw [List.foldl_cons]
    exact (ih (nm.wire w h)).trans (wire_keys nm w h k)

theorem pending_addNode (c p : NodeHandle) (nm : NodeManager) (m : MissingParentNodes)
    (n : Node) (hn : n.handle ≠ p) (hP : Pending c p nm m) :
    Pending c p (nm.addNode n m).2.1 (nm.addNode n m).2.2 := by
  unfold NodeManager.addNode
  by_cases hres : (nm.getNodeInRAM n.handle).isSome = true
  · rw [if_pos hres]
    exact hP
  · rw [if_neg hres]
    obtain ⟨h1, h2, h3, h4, h5⟩ := hP
    have hnc : n.handle ≠ c := by
      intro h
      apply hres
      rw [getNodeInRAM_isSome_iff, h]
      exact h2
    have hw : ∀ w ∈ MissingParentNodes.waiting
        ((nm.insertNode n).attachToParent n m).2 n.handle, w ≠ c := by
      intro w hw hwc
      subst hwc
      obtain ⟨e, he, hk, hce⟩ := waiting_mem_entry _ _ _ hw
      have := attachToParent_entries (nm.insertNode n) n m w p hnc h5 e he hce
      exact hn (hk.symm.trans this)
    refine ⟨?_, ?_, ?_, ?_, ?_⟩
    · intro e he hk
      have hk2 := (resolveWaiting_keys _ _ _ p).1 ⟨e, he, hk⟩
      rw [attachToParent_keys] at hk2
      obtain ⟨e1, he1, hk1⟩ := hk2
      rw [edges_insertNode, List.mem_append, List.mem_singleton] at he1
      rcases he1 with he1 | he1
      · exact h1 e1 he1 hk1
      · subst he1
        exact hn hk1
    · rw [resolveWaiting_keys, attachToParent_keys]
      obtain ⟨e, he, hk⟩ := h2
      exact ⟨e, by rw [edges_insertNode]; exact List.mem_append_left _ he, hk⟩
    · apply resolveWaiting_induct (fun x => ∀ e ∈ edges x, e.1 = c → e.2 = none) n.handle _
        (fun nm1 w1 hw1 hq => wire_other nm1 w1 n.handle c none (hw w1 hw1) hq)
      apply attachToParent_other _ _ _ _ _ hnc
      intro e he hk
      rw [edges_insertNode, List.mem_append, List.mem_singleton] at he
      rcases he with he | he
      · exact h3 e he hk
      · subst he
        rfl
    · simp only
      rw [waiting_erase_ne _ _ _ hn]
      exact attachToParent_waiting _ _ _ _ _ h4
    · intro e he hce
      simp only at he
      rw [mem_erase_entry] at he
      exact attachToParent_entries (nm.insertNode n) n m c p hnc h5 e he.1 hce

theorem pending_addNodes (c p : NodeHandle) (ns : List Node) (nm : NodeManager)
    (m : MissingParentNodes) (hns : ∀ n ∈ ns, n.handle ≠ p) (hP : Pending c p nm m) :
    Pending c p (NodeManager.addNodes nm m ns).1 (NodeManager.addNodes nm m ns).2 := by
  induction ns generalizing nm m with
  | nil => exact hP
  | cons n ns ih =>
    unfold NodeManager.addNodes
    rw [List.foldl_cons]
    exact ih _ _ (fun x hx => hns x (List.mem_cons_of_mem _ hx))
      (pending_addNode c p nm m n (hns n (List.mem_cons_self _ _)) hP)

theorem pending_first (nm : NodeManager) (m : MissingParentNodes) (child : Node)
    (p : NodeHandle) (hparent : child.parentHandle = some p) (hne : child.handle ≠ p)
    (hnew : nm.getNodeInRAM child.handle = none) (habsent : nm.getNodeInRAM p = none)
    (hfresh : child.handle ∉ checkOrphanNodes m) :
    (nm.addNode child m).1 = true ∧
    Pending child.handle p (nm.addNode child m).2.1 (nm.addNode child m).2.2 := by
  have hfresh2 : ∀ e ∈ m, child.handle ∉ e.2 := by
    intro e he hc
    apply hfresh
    unfold checkOrphanNodes
    rw [List.mem_flatMap]
    exact ⟨e, he, hc⟩
  have hnew2 := (getNodeInRAM_eq_none_iff nm child.handle).1 hnew
  have habsent2 := (getNodeInRAM_eq_none_iff nm p).1 habsent
  have hnotres : ¬ ((nm.insertNode child).getNodeInRAM p).isSome = true := by
    rw [getNodeInRAM_isSome_iff, edges_insertNode]
    rintro ⟨e, he, hk⟩
    rw [List.mem_append, List.mem_singleton] at he
    rcases he with he | he
    · exact habsent2 e he hk
    · subst he
      exact hne hk
  have hatt : (nm.insertNode child).attachToParent child m
      = (nm.insertNode child, MissingParentNodes.record m p child.handle) := by
    unfold NodeManager.attachToParent
    rw [hparent]
    simp only
    rw [if_neg hnotres]
  have hentries : ∀ e ∈ MissingParentNodes.record m p child.handle,
      child.handle ∈ e.2 → e.1 = p := by
    intro e he hce
    rcases mem_record_entry m p child.handle child.handle e he hce with h1 | ⟨e0, he0, -, hc0⟩
    · exact h1.2
    · exact absurd hc0 (hfresh2 e0 he0)
  have hw : ∀ w ∈ MissingParentNodes.waiting
      (MissingParentNodes.record m p child.handle) child.handle, w ≠ child.handle := by
    intro w hw hwc
    subst hwc
    obtain ⟨e, he, hk, hce⟩ := waiting_mem_entry _ _ _ hw
    exact hne (hk.symm.trans (hentries e he hce))
  unfold NodeManager.addNode
  rw [if_neg (by rw [hnew]; simp), hatt]
  refine ⟨rfl, ?_, ?_, ?_, ?_, ?_⟩
  · intro e he hk
    have hk2 := (resolveWaiting_keys _ _ _ p).1 ⟨e, he, hk⟩
    exact hnotres ((getNodeInRAM_isSome_iff _ _).2 hk2)
  · rw [resolveWaiting_keys]
    exact ⟨(child.handle, none), by rw [edges_insertNode]; simp, rfl⟩
  · apply resolveWaiting_induct (fun x => ∀ e ∈ edges x, e.1 = child.handle → e.2 = none)
      child.handle _
      (fun nm1 w1 hw1 hq => wire_other nm1 w1 child.handle child.handle none (hw w1 hw1) hq)
    intro e he hk
    rw [edges_insertNode, List.mem_append, List.mem_singleton] at he
    rcases he with he | he
    · exact absurd hk (hnew2 e he)
    · subst he
      rfl
  · simp only
    rw [waiting_erase_ne _ _ _ hne]
    exact waiting_record_self m p child.handle
  · intro e he hce
    simp only at he
    rw [mem_erase_entry] at he
    exact hentries e he.1 hce

theorem pending_resolved (c p : NodeHandle) (nm : NodeManager) (m : MissingParentNodes)
    (parentNode : Node) (hp : parentNode.handle = p) (hne : c ≠ p)
    (hP : Pending c p nm m) :
    (nm.addNode parentNode m).1 = true ∧
    ((nm.addNode parentNode m).2.1.getNodeInRAM p).isSome = true ∧
    (∃ e ∈ edges (nm.addNode parentNode m).2.1, e.1 = c) ∧
    (∀ e ∈ edges (nm.addNode parentNode m).2.1, e.1 = c → e.2 = some p) ∧
    MissingParentNodes.hasEntry (nm.addNode parentNode m).2.2 p = false ∧
    c ∉ checkOrphanNodes (nm.addNode parentNode m).2.2 := by
  obtain ⟨h1, h2, h3, h4, h5⟩ := hP
  subst hp
  have hres : ¬ (nm.getNodeInRAM parentNode.handle).isSome = true := by
    rw [getNodeInRAM_isSome_iff]
    rintro ⟨e, he, hk⟩
    exact h1 e he hk
  unfold NodeManager.addNode
  rw [if_neg hres]
  refine ⟨rfl, ?_, ?_, ?_, ?_, ?_⟩
  · rw [getNodeInRAM_isSome_iff, resolveWaiting_keys, attachToParent_keys]
    exact ⟨(parentNode.handle, none), by rw [edges_insertNode]; simp, rfl⟩
  · rw [resolveWaiting_keys, attachToParent_keys]
    obtain ⟨e, he, hk⟩ := h2
    exact ⟨e, by rw [edges_insertNode]; exact List.mem_append_left _ he, hk⟩
  · exact resolveWaiting_wires _ _ _ _ (attachToParent_waiting _ _ _ _ _ h4)
  · exact (hasEntry_erase _ _).1
  · unfold checkOrphanNodes
    rw [List.mem_flatMap]
    rintro ⟨e, he, hce⟩
    simp only at he
    rw [mem_erase_entry] at he
    exact he.2 (attachToParent_entries (nm.insertNode parentNode) parentNode m c
      parentNode.handle (Ne.symm hne) h5 e he.1 hce)

theorem getChildren_mem (stored : List (Node × NodeCounter)) (nm : NodeManager)
    (c p : NodeHandle) (hp : (nm.getNodeInRAM p).isSome = true)
    (hc : ∃ e ∈ edges nm, e.1 = c) (hcp : ∀ e ∈ edges nm, e.1 = c → e.2 = some p) :
    c ∈ (nm.getChildren stored p).1 := by
  obtain ⟨e, he, hk⟩ := hc
  have hpar := hcp e he hk
  unfold NodeManager.getChildren
  cases hr : nm.getNodeInRAM p with
  | none => simp [hr] at hp
  | some r =>
    simp only
    split
    · simp only
      rw [childrenInRAM_handles, List.mem_map]
      exact ⟨e, List.mem_filter.2 ⟨he, by simp [hpar]⟩, hk⟩
    · simp only
      rw [childrenInRAM_handles, edges_modifyNode_counter _ p
        (fun x => { x with mAllChildrenHandleLoaded := true }) (fun r => ⟨rfl, rfl⟩),
        List.mem_map]
      refine ⟨e, List.mem_filter.2 ⟨?_, by simp [hpar]⟩, hk⟩
      unfold edges
      simp only [List.map_append, List.mem_append]
      exact Or.inl he

theorem unwired_facts (nm : NodeManager) (c : NodeHandle)
    (h2 : ∃ e ∈ edges nm, e.1 = c) (h3 : ∀ e ∈ edges nm, e.1 = c → e.2 = none) :
    (∃ r, nm.getNodeInRAM c = some r ∧ r.parent = none) ∧
    ∀ x, c ∉ (nm.childrenInRAM x).map fun r => r.node.handle := by
  constructor
  · have hs := (getNodeInRAM_isSome_iff nm c).2 h2
    cases hr : nm.getNodeInRAM c with
    | none => simp [hr] at hs
    | some r =>
      refine ⟨r, rfl, ?_⟩
      unfold NodeManager.getNodeInRAM at hr
      have hmem := List.mem_of_find?_eq_some hr
      have hkey := List.find?_some hr
      simp only [decide_eq_true_eq] at hkey
      exact h3 (r.node.handle, r.parent) (List.mem_map.2 ⟨r, hmem, rfl⟩) hkey
  · intro x hx
    rw [childrenInRAM_handles, List.mem_map] at hx
    obtain ⟨e, he, hk⟩ := hx
    rw [List.mem_filter] at he
    have := h3 e he.1 hk
    simp [this] at he

/-- C7: let `child` be a node that is not resident, whose parent `p` is not resident either
and which the `missingParents` map does not record yet. `addNode(child)` succeeds, leaves the
child without wired parent (it is in no in-memory child list) and records it in the map under
`p`. When then, after any further `addNode` calls for nodes other than `p`, the parent is
added with `addNode`, that call succeeds, `getChildren(p)` returns the child, the map has no
entry for `p` any more and `checkOrphanNodes` does not report the child. -/
theorem out_of_order_ingestion (stored : List (Node × NodeCounter)) (nm : NodeManager)
    (m : MissingParentNodes) (child parentNode : Node) (between : List Node) (p : NodeHandle)
    (hparent : child.parentHandle = some p) (hne : child.handle ≠ p)
    (hnew : nm.getNodeInRAM child.handle = none) (habsent : nm.getNodeInRAM p = none)
    (hfresh : child.handle ∉ checkOrphanNodes m)
    (hbetween : ∀ n ∈ between, n.handle ≠ p)
    (hp : parentNode.handle = p) :
    (nm.addNode child m).1 = true ∧
    (∃ r, (nm.addNode child m).2.1.getNodeInRAM child.handle = some r ∧ r.parent = none) ∧
    (∀ x, child.handle ∉
      ((nm.addNode child m).2.1.childrenInRAM x).map fun r => r.node.handle) ∧
    child.handle ∈ MissingParentNodes.waiting (nm.addNode child m).2.2 p ∧
    (((NodeManager.addNodes (nm.addNode child m).2.1 (nm.addNode child m).2.2 between).1.addNode
      parentNode
      (NodeManager.addNodes (nm.addNode child m).2.1 (nm.addNode child m).2.2 between).2).1
        = true) ∧
    child.handle ∈
      (((NodeManager.addNodes (nm.addNode child m).2.1 (nm.addNode child m).2.2
        between).1.addNode parentNode
        (NodeManager.addNodes (nm.addNode child m).2.1 (nm.addNode child m).2.2
          between).2).2.1.getChildren stored p).1 ∧
    MissingParentNodes.hasEntry
      ((NodeManager.addNodes (nm.addNode child m).2.1 (nm.addNode child m).2.2
        between).1.addNode parentNode
        (NodeManager.addNodes (nm.addNode child m).2.1 (nm.addNode child m).2.2
          between).2).2.2 p = false ∧
    child.handle ∉ checkOrphanNodes
      ((NodeManager.addNodes (nm.addNode child m).2.1 (nm.addNode child m).2.2
        between).1.addNode parentNode
        (NodeManager.addNodes (nm.addNode child m).2.1 (nm.addNode child m).2.2
          between).2).2.2 := by
  obtain ⟨hok, hP⟩ := pending_first nm m child p hparent hne hnew habsent hfresh
  have hP2 := pending_addNodes child.handle p between _ _ hbetween hP
  obtain ⟨r1, r2, r3, r4, r5, r6⟩ := pending_resolved child.handle p _ _ parentNode hp hne hP2
  have hu := unwired_facts _ child.handle hP.2.1 hP.2.2.1
  exact ⟨hok, hu.1, hu.2, hP.2.2.2.1, r1, getChildren_mem stored _ _ _ r2 r3 r4, r5, r6⟩

theorem out_of_order_ingestion_witness :
    ingestFirst.1 = true ∧
    (∃ r, ingestFirst.2.1.getNodeInRAM ingestChild.handle = some r ∧ r.parent = none) ∧
    (∀ x, ingestChild.handle ∉
      (ingestFirst.2.1.childrenInRAM x).map fun r => r.node.handle) ∧
    ingestChild.handle ∈ MissingParentNodes.waiting ingestFirst.2.2 ⟨1⟩ ∧
    ingestLast.1 = true ∧
    ingestChild.handle ∈ (ingestLast.2.1.getChildren [] ⟨1⟩).1 ∧
    MissingParentNodes.hasEntry ingestLast.2.2 ⟨1⟩ = false ∧
    ingestChild.handle ∉ checkOrphanNodes ingestLast.2.2 :=
  out_of_order_ingestion [] { mNodes := [] } [] ingestChild ingestParent ingestBetween ⟨1⟩
    rfl (by decide) rfl rfl (by decide) (by decide) rfl

/-! ### Tree counters -/

theorem find_eq_none_iff (s : CppString) (c : Char) : s.find c = none ↔ c ∉ s := by
  induction s with
  | nil => simp [CppString.find]
  | cons x xs ih =>
    unfold CppString.find
    by_cases h : x = c
    · simp [h]
    · have h2 : ¬ c = x := fun hh => h hh.symm
      simp [h, h2, ih]

theorem find_eq_some (s : CppString) (c : Char) (pos : Nat) (h : s.find c = some pos) :
    s = s.take pos ++ c :: s.drop (pos + 1) ∧ c ∉ s.take pos := by
  induction s generalizing pos with
  | nil => simp [CppString.find] at h
  | cons x xs ih =>
    unfold CppString.find at h
    by_cases hx : x = c
    · rw [if_pos hx] at h
      cases h
      simp [hx]
    · rw [if_neg hx] at h
      cases hf : CppString.find xs c with
      | none => simp [hf] at h
      | some q =>
        rw [hf] at h
        simp only [Option.map_some', Option.some.injEq] at h
        subst h
        obtain ⟨h1, h2⟩ := ih q hf
        constructor
        · simp only [List.take_succ_cons, List.drop_succ_cons, List.cons_append]
          rw [← h1]
        · simp only [List.take_succ_cons, List.mem_cons, not_or]
          exact ⟨fun hh => hx hh.symm, h2⟩

/-- C18: for a string that contains `=`, `parseOneArgument` returns a name and a value with
`name ++ "=" ++ value` the string and no `=` in the name; for a string without `=` it returns
the string and the empty string. -/
theorem parseOneArgument_splits_at_first_equals (s : CppString) :
    ('=' ∈ s →
      (parseOneArgument s).1 ++ '=' :: (parseOneArgument s).2 = s ∧
      '=' ∉ (parseOneArgument s).1) ∧
    ('=' ∉ s → parseOneArgument s = (s, [])) := by
  constructor
  · intro hmem
    cases hf : s.find '=' with
    | none => exact absurd hmem ((find_eq_none_iff s '=').1 hf)
    | some pos =>
      obtain ⟨h1, h2⟩ := find_eq_some s '=' pos hf
      simp only [parseOneArgument, hf]
      exact ⟨h1.symm, h2⟩
  · intro hnot
    simp [parseOneArgument, (find_eq_none_iff s '=').2 hnot]

theorem parseOneArgument_splits_at_first_equals_witness :
    (['-', 'k'] ++ '=' :: ['v', '=', 'w'] = ['-', 'k', '=', 'v', '=', 'w'] ∧
      '=' ∉ (parseOneArgument ['-', 'k', '=', 'v', '=', 'w']).1) ∧
    parseOneArgument ['-', 'f', 'l', 'a', 'g'] = (['-', 'f', 'l', 'a', 'g'], []) :=
  ⟨(parseOneArgument_splits_at_first_equals ['-', 'k', '=', 'v', '=', 'w']).1 (by decide),
    (parseOneArgument_splits_at_first_equals ['-', 'f', 'l', 'a', 'g']).2 (by decide)⟩

theorem emplace_find (m : ArgumentMap) (kv : CppString × CppString) (name : CppString) :
    (m.emplace kv).find name
      = match m.find name with
        | some e => some e
        | none => if kv.1 = name then some kv else none := by
  unfold ArgumentMap.emplace ArgumentMap.find
  by_cases hany : (m.any fun e => decide (e.1 = kv.1)) = true
  · rw [if_pos hany]
    cases hf : List.find? (fun e => decide (e.1 = name)) m with
    | some e => rfl
    | none =>
      simp only
      by_cases hk : kv.1 = name
      · exfalso
        rw [List.any_eq_true] at hany
        obtain ⟨e, he, hek⟩ := hany
        rw [List.find?_eq_none] at hf
        have := hf e he
        simp only [decide_eq_true_eq] at this hek
        exact this (hek.trans hk)
      · rw [if_neg hk]
  · rw [if_neg hany, List.find?_append]
    cases hf : List.find? (fun e => decide (e.1 = name)) m with
    | some e => rfl
    | none =>
      by_cases hk : kv.1 = name <;> simp [hk]

theorem parse_foldl_find (args : List CppString) (m : ArgumentMap) (name : CppString) :
    (args.foldl (fun result argument => result.emplace (parseOneArgument argument)) m).find name
      = match m.find name with
        | some e => some e
        | none => (args.find? fun a => decide (namePart a = name)).map parseOneArgument := by
  induction args generalizing m with
  | nil =>
    cases hf : m.find name <;> simp [hf]
  | cons a args ih =>
    rw [List.foldl_cons, ih, emplace_find]
    cases hf : m.find name with
    | some e => rfl
    | none =>
      simp only
      by_cases hk : (parseOneArgument a).1 = name
      · simp [hk, namePart]
      · simp [hk, namePart]

theorem parse_find (args : List CppString) (name : CppString) :
    (Arguments.parse args).find name
      = (args.find? fun a => decide (namePart a = name)).map parseOneArgument := by
  unfold Arguments.parse
  rw [parse_foldl_find]
  rfl

theorem count_pos_iff_find (m : ArgumentMap) (name : CppString) :
    m.count name > 0 ↔ (m.find name).isSome = true := by
  unfold ArgumentMap.count ArgumentMap.find
  show 0 < _ ↔ _
  rw [List.length_pos, List.find?_isSome]
  constructor
  · intro h
    obtain ⟨e, he⟩ := List.exists_mem_of_ne_nil _ h
    rw [List.mem_filter] at he
    exact ⟨e, he.1, he.2⟩
  · rintro ⟨e, he, hp⟩ hnil
    have : e ∈ List.filter (fun e => decide (e.1 = name)) m := List.mem_filter.2 ⟨he, hp⟩
    rw [hnil] at this
    cases this

/-- C17 (as amended): after `Arguments::parse`, `getValue(name, d)` returns the value part of
the first argument whose name part is `name`, whatever follows that argument; it returns `d`
when no argument has that name; and `contains(name)` is false exactly when no argument has
that name. -/
theorem getValue_first_occurrence_wins (args : List CppString) (name d : CppString) :
    (∀ before a after, args = before ++ a :: after →
      (∀ b ∈ before, namePart b ≠ name) → namePart a = name →
      (Arguments.mk (Arguments.parse args)).getValue name d = valuePart a) ∧
    ((∀ a ∈ args, namePart a ≠ name) →
      (Arguments.mk (Arguments.parse args)).getValue name d = d) ∧
    ((Arguments.mk (Arguments.parse args)).contains name = false
      ↔ ∀ a ∈ args, namePart a ≠ name) := by
  refine ⟨?_, ?_, ?_⟩
  · intro before a after hargs hbefore ha
    have hfind : (args.find? fun a => decide (namePart a = name)) = some a := by
      rw [hargs, List.find?_append]
      have h1 : List.find? (fun a => decide (namePart a = name)) before = none := by
        rw [List.find?_eq_none]
        intro b hb
        simpa using hbefore b hb
      rw [h1]
      simp [ha]
    simp only [Arguments.getValue, parse_find, hfind, Option.map_some']
    rfl
  · intro hnone
    have hfind : (args.find? fun a => decide (namePart a = name)) = none := by
      rw [List.find?_eq_none]
      intro b hb
      simpa using hnone b hb
    simp [Arguments.getValue, parse_find, hfind]
  · unfold Arguments.contains
    rw [decide_eq_false_iff_not, count_pos_iff_find, parse_find]
    simp only [Option.isSome_map', Bool.not_eq_true, Option.not_isSome,
      Option.isNone_iff_eq_none, List.find?_eq_none, decide_eq_true_eq]

theorem getValue_first_occurrence_wins_witness :
    (Arguments.mk (Arguments.parse exampleArguments)).getValue ['-', 'k'] ['d'] = ['v', '=', 'w'] ∧
    (Arguments.mk (Arguments.parse exampleArguments)).getValue ['-', 'q'] ['d'] = ['d'] ∧
    ((Arguments.mk (Arguments.parse exampleArguments)).contains ['-', 'q'] = false
      ↔ ∀ a ∈ exampleArguments, namePart a ≠ ['-', 'q']) :=
  ⟨(getValue_first_occurrence_wins exampleArguments ['-', 'k'] ['d']).1 []
      ['-', 'k', '=', 'v', '=', 'w'] [['-', 'k', '=', 'z'], ['-', 'f', 'l', 'a', 'g']] rfl
      (by decide) (by decide),
    (getValue_first_occurrence_wins exampleArguments ['-', 'q'] ['d']).2.1 (by decide),
    (getValue_first_occurrence_wins exampleArguments ['-', 'q'] ['d']).2.2⟩

/-- C17 as stated fails: with the single argument `-k=d` the lookup `getValue("-k", "d")`
returns the default `d` although an argument has the name `-k` and `contains("-k")` is true. -/
theorem getValue_returns_default_for_present_name :
    (Arguments.mk (Arguments.parse [['-', 'k', '=', 'd']])).getValue ['-', 'k'] ['d'] = ['d'] ∧
    namePart ['-', 'k', '=', 'd'] = ['-', 'k'] ∧
    (Arguments.mk (Arguments.parse [['-', 'k', '=', 'd']])).contains ['-', 'k'] = true := by
  decide

/-! ### NodeSearchFilter -/

/-- C15: after `copyFrom(f, st)` the getters return what `f` returned: the name (the empty
string for a null name), the category, the sensitivity flag, the location handle and the two
creation-time limits, and `byShareType()` returns `st`; after `copyFrom(f)` without share type
`byShareType()` is `NO_SHARES`, whatever the filter held before, in particular whatever share
type it was constructed with. -/
theorem copyFrom_carries_every_dimension (self : NodeSearchFilter) (f : SourceFilter)
    (st previous : ShareType_t) (mimeTypeUnknown : MimeType_t) (undef : Nat) :
    (self.copyFrom f st).byName = f.byName.getD "" ∧
    (self.copyFrom f st).byCategory = f.byCategory ∧
    (self.copyFrom f st).bySensitivity = f.bySensitivity ∧
    (self.copyFrom f st).byLocationHandle = f.byLocationHandle ∧
    (self.copyFrom f st).byCreationTimeLowerLimit = f.byCreationTimeLowerLimit ∧
    (self.copyFrom f st).byCreationTimeUpperLimit = f.byCreationTimeUpperLimit ∧
    (self.copyFrom f st).byShareType = st ∧
    (self.copyFromDefault f).byShareType = ShareType_t.NO_SHARES ∧
    ((NodeSearchFilter.construct mimeTypeUnknown undef previous).copyFromDefault f).byShareType
      = ShareType_t.NO_SHARES := by
  refine ⟨?_, rfl, rfl, rfl, rfl, rfl, rfl, rfl, rfl⟩
  cases hn : f.byName <;> simp [NodeSearchFilter.copyFrom, NodeSearchFilter.byName, hn]

/-! ### `socket_utils.cpp` -/

theorem pollLoop_timeouts (px : Posix) (timeout : Int) (outcomes : List PollOutcome) :
    ∀ (fds : List PollFd) (remaining : Int) (timeouts : List Int) (report : PollReport),
      pollLoop px timeout fds remaining timeouts outcomes = some report →
      ∃ k, 0 < k ∧ report.timeouts = timeouts ++ List.replicate k (castToInt timeout) := by
  induction outcomes with
  | nil => intro fds remaining timeouts report h; simp [pollLoop] at h
  | cons o os ih =>
    intro fds remaining timeouts report h
    simp only [pollLoop] at h
    split_ifs at h with h1 h2 h3
    · obtain ⟨k, _, hk⟩ := ih _ _ _ _ h
      refine ⟨k + 1, Nat.succ_pos k, ?_⟩
      rw [hk, List.append_assoc, List.replicate_succ]
      rfl
    all_goals
      refine ⟨1, Nat.one_pos, ?_⟩
      simp only [Option.some.injEq] at h
      subst h
      rfl

theorem pollFd_code_eq_poll_code (px : Posix) (fd : Int) (events : Nat) (timeout : Int)
    (outcomes : List PollOutcome) (hz : isPollError px 0 = false) :
    pollFd px fd events timeout outcomes =
      (poll px [{ fd := fd, events := events, revents := 0 }] timeout outcomes).map
        fun report => (report.code, report.rest) := by
  cases h : poll px [{ fd := fd, events := events, revents := 0 }] timeout outcomes with
  | none => simp only [pollFd, h, Option.map_none']
  | some report =>
    by_cases hc : report.code = 0
    · simp [pollFd, h, hc, hz]
    · simp [pollFd, h, hc]

/-- C13: the code does not do what the claim says. The system call reports one ready
descriptor with `POLLHUP` in `revents`, an error event, and the copy of the vector inside
`poll` holds it; `pollFd` nevertheless returns the empty error code instead of
`ECONNABORTED`, because it inspects its own vector, which `poll` took by value. -/
theorem pollFd_misses_error_event :
    isPollError Posix.linux Posix.linux.POLLHUP = true ∧
    (poll Posix.linux [{ fd := 5, events := Posix.linux.POLLIN, revents := 0 }] 1000
        [{ ret := 1, errno := 0, revents := [Posix.linux.POLLHUP], passed := 3 }]).map
      (fun report => (report.code, report.fds.map fun f => f.revents)) =
      some (0, [Posix.linux.POLLHUP]) ∧
    pollFd Posix.linux 5 Posix.linux.POLLIN 1000
        [{ ret := 1, errno := 0, revents := [Posix.linux.POLLHUP], passed := 3 }] =
      some (0, []) ∧
    Posix.linux.ECONNABORTED ≠ 0 := by
  decide

/-- C16: the code does not do what the claim says. With a timeout of 1000 ms, a first wait
that is interrupted (`EINTR`) after 400 ms is followed by a second `::poll` call that is again
given 1000 ms, not the 600 ms that remain; when the descriptor becomes ready 900 ms into that
second wait the call succeeds, 1300 ms after it started. -/
theorem poll_retry_restarts_full_timeout :
    (poll Posix.linux [{ fd := 5, events := Posix.linux.POLLIN, revents := 0 }] 1000
        [{ ret := -1, errno := Posix.linux.EINTR, revents := [0], passed := 400 },
         { ret := 1, errno := 0, revents := [Posix.linux.POLLIN], passed := 1300 }]).map
      (fun report => (report.code, report.timeouts)) = some (0, [1000, 1000]) := by
  decide

theorem listen_rejects_iff (px : Posix) (socketPath : CppString) (env : ListenOutcome) :
    (SocketUtils.listen px socketPath env).2 = [] ↔
      strlen socketPath + 1 ≥ px.sunPathSize := by
  unfold SocketUtils.listen maxSocketPathLength
  by_cases h1 : strlen socketPath ≥ px.sunPathSize - 1
  · rw [if_pos h1]
    simp only [true_iff]
    omega
  · rw [if_neg h1]
    constructor
    · intro h
      exfalso
      revert h
      dsimp only
      split_ifs <;> simp
    · intro h
      omega

set_option maxRecDepth 8192 in
/-- C14: the code does not do what the claim says. On Linux the name field `sun_path` has 108
bytes; a socket path of 107 characters fits in it together with its terminating null
character, yet `listen` returns `ENAMETOOLONG` with descriptor `-1` and makes no system call
at all. -/
theorem listen_rejects_name_that_fits :
    strlen (List.replicate 107 'a') + 1 ≤ Posix.linux.sunPathSize ∧
    (sunPathOf Posix.linux (List.replicate 107 'a')).length = Posix.linux.sunPathSize ∧
    (sunPathOf Posix.linux (List.replicate 107 'a')).getLast? = some (Char.ofNat 0) ∧
    SocketUtils.listen Posix.linux (List.replicate 107 'a')
        { socketRet := 3, socketErrno := 0, bindRet := 0, bindErrno := 0, listenRet := 0,
          listenErrno := 0 } =
      ((Posix.linux.ENAMETOOLONG, -1), []) := by
  decide
theorem bytesRead_append (a b : List ReadRecord) :
    bytesRead (a ++ b) = bytesRead a + bytesRead b := by
  simp [bytesRead]

theorem readTraceOk_snoc (n : Nat) (made : List ReadRecord) (t : ReadRecord)
    (hok : ReadTraceOk n made) (hoff : t.offset = bytesRead made)
    (hcount : t.count = n - t.offset) (hlt : t.offset < n) :
    ReadTraceOk n (made ++ [t]) := by
  intro i u hu
  by_cases hi : i < made.length
  · rw [List.getElem?_append_left hi] at hu
    rw [List.take_append_of_le_length (Nat.le_of_lt hi)]
    exact hok i u hu
  · have hlen : (made ++ [t]).length = made.length + 1 := by simp
    have hi2 : i < (made ++ [t]).length := by
      by_contra hcon
      rw [List.getElem?_eq_none (Nat.le_of_not_lt hcon)] at hu
      exact absurd hu (by simp)
    have hi3 : i = made.length := by omega
    subst hi3
    rw [List.getElem?_append_right (Nat.le_refl _)] at hu
    simp only [Nat.sub_self, List.getElem?_cons_zero, Option.some.injEq] at hu
    subst hu
    rw [List.take_left]
    exact ⟨hoff, hcount, hlt⟩

theorem readLoop_spec (px : Posix) (fd : Int) (n : Nat) (timeout : Int)
    (hn : n < 18446744073709551616) (hab : px.ECONNABORTED ≠ 0) :
    ∀ (reads : List ReadOutcome) (offset : Nat) (made : List ReadRecord)
      (polls : List PollOutcome) (res : ReadReport),
      SocketUtils.readLoop px fd n timeout offset made polls reads = some res →
      (∃ new, res.reads = made ++ new) ∧
      (offset = bytesRead made → offset ≤ n → ReadTraceOk n made →
        (∀ t ∈ made, t.ret ≠ 0) →
        (∀ t ∈ res.reads, t.ret ≤ t.count ∧ (t.ret < 0 → t.errno ≠ 0)) →
        (res.code = 0 ↔ bytesRead res.reads = n) ∧ ReadTraceOk n res.reads ∧
        (∀ t ∈ res.reads, t.ret = 0 → res.code = px.ECONNABORTED) ∧
        res.offset = bytesRead res.reads) := by
  intro reads
  induction reads with
  | nil =>
    intro offset made polls res h
    unfold SocketUtils.readLoop at h
    split_ifs at h with h1
    · split at h
      · exact absurd h (by simp)
      · split_ifs at h with h2
        simp only [Option.some.injEq] at h
        subst h
        refine ⟨⟨[], by simp⟩, ?_⟩
        intro hoff hle hok heof hres
        refine ⟨?_, hok, ?_, hoff⟩
        · constructor
          · intro hc; exact absurd hc h2
          · intro hb; simp only at hb; omega
        · intro t ht h0; exact absurd h0 (heof t ht)
    · simp only [Option.some.injEq] at h
      subst h
      refine ⟨⟨[], by simp⟩, ?_⟩
      intro hoff hle hok heof hres
      refine ⟨?_, hok, ?_, hoff⟩
      · simp only [true_iff]; omega
      · intro t ht h0; exact absurd h0 (heof t ht)
  | cons r rs ih =>
    intro offset made polls res h
    unfold SocketUtils.readLoop at h
    split_ifs at h with h1
    · split at h
      · exact absurd h (by simp)
      · split_ifs at h with h2
        · simp only [Option.some.injEq] at h
          subst h
          refine ⟨⟨[], by simp⟩, ?_⟩
          intro hoff hle hok heof hres
          refine ⟨?_, hok, ?_, hoff⟩
          · constructor
            · intro hc; exact absurd hc h2
            · intro hb; simp only at hb; omega
          · intro t ht h0; exact absurd h0 (heof t ht)
        · simp only at h
          have hrem : (n + 18446744073709551616 - offset) % 18446744073709551616 = n - offset := by
            have e : n + 18446744073709551616 - offset = (n - offset) + 18446744073709551616 := by
              omega
            rw [e, Nat.add_mod_right]
            exact Nat.mod_eq_of_lt (by omega)
          rw [hrem] at h
          split_ifs at h with h3 h4 h5
          · -- a failure that is retried
            obtain ⟨⟨new, hnew⟩, hrest⟩ := ih _ _ _ _ h
            refine ⟨⟨_, by rw [hnew, List.append_assoc]⟩, ?_⟩
            intro hoff hle hok heof hres
            have hb : bytesRead (made ++ [(⟨offset, n - offset, r.ret, r.errno⟩ : ReadRecord)]) = bytesRead made := by
              rw [bytesRead_append]
              simp only [bytesRead, List.map_cons, List.map_nil, List.sum_cons, List.sum_nil]
              have : r.ret.toNat = 0 := by omega
              omega
            refine hrest (by rw [hb]; exact hoff) hle
              (readTraceOk_snoc n made _ hok hoff rfl h1) ?_ hres
            intro t ht
            rcases List.mem_append.mp ht with hm | hm
            · exact heof t hm
            · simp only [List.mem_singleton] at hm
              subst hm
              simp only
              omega
          · -- a failure that is not retried
            simp only [Option.some.injEq] at h
            subst h
            refine ⟨⟨_, rfl⟩, ?_⟩
            intro hoff hle hok heof hres
            simp only at hres ⊢
            have hmem := hres (⟨offset, n - offset, r.ret, r.errno⟩ : ReadRecord) (by simp)
            simp only at hmem
            have hb : bytesRead (made ++ [(⟨offset, n - offset, r.ret, r.errno⟩ : ReadRecord)]) =
                bytesRead made := by
              rw [bytesRead_append]
              simp only [bytesRead, List.map_cons, List.map_nil, List.sum_cons, List.sum_nil]
              have : r.ret.toNat = 0 := by omega
              omega
            refine ⟨?_, readTraceOk_snoc n made _ hok hoff rfl h1, ?_, by rw [hb]; exact hoff⟩
            · constructor
              · intro hc; exact absurd hc (hmem.2 h4)
              · intro hb2
                rw [hb] at hb2
                omega
            · intro t ht h0
              rcases List.mem_append.mp ht with hm | hm
              · exact absurd h0 (heof t hm)
              · simp only [List.mem_singleton] at hm
                subst hm
                simp only at h0
                omega
          · -- end of file
            simp only [Option.some.injEq] at h
            subst h
            refine ⟨⟨_, rfl⟩, ?_⟩
            intro hoff hle hok heof hres
            simp only at hres ⊢
            have hb : bytesRead (made ++ [(⟨offset, n - offset, r.ret, r.errno⟩ : ReadRecord)]) =
                bytesRead made := by
              rw [bytesRead_append]
              simp only [bytesRead, List.map_cons, List.map_nil, List.sum_cons, List.sum_nil]
              have : r.ret.toNat = 0 := by omega
              omega
            refine ⟨?_, readTraceOk_snoc n made _ hok hoff rfl h1, ?_, by rw [hb]; exact hoff⟩
            · constructor
              · intro hc; exact absurd hc hab
              · intro hb2
                rw [hb] at hb2
                omega
            · intro t ht h0
              trivial
          · -- bytes were read
            obtain ⟨⟨new, hnew⟩, hrest⟩ := ih _ _ _ _ h
            refine ⟨⟨_, by rw [hnew, List.append_assoc]⟩, ?_⟩
            intro hoff hle hok heof hres
            have hmem := hres (⟨offset, n - offset, r.ret, r.errno⟩ : ReadRecord) (by rw [hnew]; simp)
            simp only at hmem
            have hpos : 0 < r.ret := by
              by_contra hcon
              have : r.ret < 0 ∨ r.ret = 0 := by omega
              rcases this with hneg | hz
              · exact h4 hneg
              · exact h5 ⟨hz, h1⟩
            have hsum : offset + r.ret.toNat ≤ n := by omega
            have hmod : (offset + r.ret.toNat) % 18446744073709551616 = offset + r.ret.toNat :=
              Nat.mod_eq_of_lt (by omega)
            rw [hmod] at hrest
            have hb : bytesRead (made ++ [(⟨offset, n - offset, r.ret, r.errno⟩ : ReadRecord)]) = bytesRead made + r.ret.toNat := by
              rw [bytesRead_append]
              simp only [bytesRead, List.map_cons, List.map_nil, List.sum_cons, List.sum_nil]
              omega
            refine hrest (by rw [hb, hoff]) hsum
              (readTraceOk_snoc n made _ hok hoff rfl h1) ?_ hres
            intro t ht
            rcases List.mem_append.mp ht with hm | hm
            · exact heof t hm
            · simp only [List.mem_singleton] at hm
              subst hm
              simp only
              omega
    · simp only [Option.some.injEq] at h
      subst h
      refine ⟨⟨[], by simp⟩, ?_⟩
      intro hoff hle hok heof hres
      refine ⟨?_, hok, ?_, hoff⟩
      · simp only [true_iff]; omega
      · intro t ht h0; exact absurd h0 (heof t ht)

/-- C12: on every sequence of poll and read outcomes on which `SocketUtils::read` returns,
with every `::read` call returning at most the number of bytes it was asked for and leaving a
non-zero `errno` when it fails, the function returns the empty error code if and only if the
byte counts of the successful reads sum to exactly `n`; every read is made at the offset that
is the sum of the bytes read before it, is asked for the `n - offset` bytes still missing and
is made only while bytes are missing; a read that reports end of file makes the function
return `ECONNABORTED`; a failed read leaves the offset of the next read, and the final offset,
unchanged; and for `n = 0` the function succeeds without consuming a poll or read outcome. -/
theorem read_exactly_n_or_fails (px : Posix) (fd : Int) (n : Nat) (timeout : Int)
    (polls : List PollOutcome) (reads : List ReadOutcome) (res : ReadReport)
    (hn : n < 18446744073709551616) (hab : px.ECONNABORTED ≠ 0)
    (h : SocketUtils.read px fd n timeout polls reads = some res)
    (hos : ∀ t ∈ res.reads, t.ret ≤ t.count ∧ (t.ret < 0 → t.errno ≠ 0)) :
    (res.code = 0 ↔ bytesRead res.reads = n) ∧
    (∀ (i : Nat) (t : ReadRecord), res.reads[i]? = some t →
      t.offset = bytesRead (res.reads.take i) ∧ t.count = n - t.offset ∧ t.offset < n) ∧
    (∀ t ∈ res.reads, t.ret = 0 → res.code = px.ECONNABORTED) ∧
    (∀ (i : Nat) (t u : ReadRecord), res.reads[i]? = some t → res.reads[i + 1]? = some u →
      t.ret < 0 → u.offset = t.offset) ∧
    res.offset = bytesRead res.reads ∧
    (n = 0 → res = { code := 0, offset := 0, reads := [], pollsLeft := polls,
                     readsLeft := reads }) := by
  obtain ⟨hiff, hok, heof, hoff⟩ :=
    (readLoop_spec px fd n timeout hn hab reads 0 [] polls res h).2 rfl (Nat.zero_le n)
      (fun i t ht => absurd ht (by simp)) (fun t ht => absurd ht (by simp)) hos
  refine ⟨hiff, hok, heof, ?_, hoff, ?_⟩
  · intro i t u ht hu hneg
    rw [(hok (i + 1) u hu).1, (hok i t ht).1, List.take_succ, ht, bytesRead_append]
    simp only [bytesRead, Option.toList, List.map_cons, List.map_nil, List.sum_cons,
      List.sum_nil]
    have : t.ret.toNat = 0 := by omega
    omega
  · intro h0
    subst h0
    unfold SocketUtils.read SocketUtils.readLoop at h
    simp only [Nat.lt_irrefl, if_false, Option.some.injEq] at h
    exact h.symm

theorem read_exactly_n_or_fails_witness :
    SocketUtils.read Posix.linux 5 5 1000 exampleReadPolls exampleReads =
      some exampleReadReport ∧
    (∀ t ∈ exampleReadReport.reads, t.ret ≤ t.count ∧ (t.ret < 0 → t.errno ≠ 0)) ∧
    (exampleReadReport.code = 0 ↔ bytesRead exampleReadReport.reads = 5) :=
  ⟨by decide, by decide,
    (read_exactly_n_or_fails Posix.linux 5 5 1000 exampleReadPolls exampleReads
      exampleReadReport (by decide) (by decide) (by decide) (by decide)).1⟩

/-! ### getNodeByHandle -/

theorem getNodeInRAM_after_load (c : NodeCache) (h : NodeHandle) (node : NodeInstance)
    (extra : List NodeHandle) (reads allocated : Nat)
    (hmiss : c.getNodeInRAM h = none) (hh : node.handle = h) :
    NodeCache.getNodeInRAM
      { mNodes := c.mNodes ++ [node], mFingerPrints := extra, mTable := c.mTable,
        storageReads := reads, allocated := allocated } h = some node := by
  unfold NodeCache.getNodeInRAM at hmiss ⊢
  simp only [List.find?_append, hmiss, Option.none_or, List.find?_cons, hh, decide_True]

theorem getNodeByHandle_of_resident (unserializeNode : String → Option String) (c : NodeCache)
    (h : NodeHandle) (node : NodeInstance) (hres : c.getNodeInRAM h = some node) :
    c.getNodeByHandle unserializeNode h = (some node, c) := by
  unfold NodeCache.getNodeByHandle
  rw [hres]

theorem getNodeByHandle_resident_after (unserializeNode : String → Option String)
    (c : NodeCache) (h : NodeHandle) (n : NodeInstance)
    (hfirst : (c.getNodeByHandle unserializeNode h).1 = some n) :
    (c.getNodeByHandle unserializeNode h).2.getNodeInRAM h = some n := by
  unfold NodeCache.getNodeByHandle at hfirst ⊢
  cases hram : c.getNodeInRAM h with
  | some node =>
    rw [hram] at hfirst
    simp only [Option.some.injEq] at hfirst
    subst hfirst
    exact hram
  | none =>
    rw [hram] at hfirst
    simp only at hfirst ⊢
    unfold NodeCache.getNodeFromDataBase at hfirst ⊢
    cases hdb : c.getNode h with
    | none =>
      rw [hdb] at hfirst
      exact absurd hfirst (by simp)
    | some s =>
      rw [hdb] at hfirst
      simp only at hfirst ⊢
      unfold NodeCache.getNodeFromNodeSerialized at hfirst ⊢
      cases hun : unserializeNode s.mNode with
      | none =>
        rw [hun] at hfirst
        exact absurd hfirst (by simp)
      | some content =>
        rw [hun] at hfirst
        simp only [Option.some.injEq] at hfirst
        subst hfirst
        exact getNodeInRAM_after_load c h _ _ _ _ hram rfl

theorem getNodeByHandle_none_again (unserializeNode : String → Option String) (c : NodeCache)
    (h : NodeHandle) (hfirst : (c.getNodeByHandle unserializeNode h).1 = none) :
    (((c.getNodeByHandle unserializeNode h).2).getNodeByHandle unserializeNode h).1 = none := by
  have hram : c.getNodeInRAM h = none := by
    cases hr : c.getNodeInRAM h with
    | none => rfl
    | some node =>
      rw [getNodeByHandle_of_resident unserializeNode c h node hr] at hfirst
      exact absurd hfirst (by simp)
  have hstate : (c.getNodeByHandle unserializeNode h).2 =
      { c with storageReads := c.storageReads + 1 } := by
    unfold NodeCache.getNodeByHandle at hfirst ⊢
    rw [hram] at hfirst ⊢
    simp only at hfirst ⊢
    unfold NodeCache.getNodeFromDataBase at hfirst ⊢
    cases hdb : c.getNode h with
    | none => rfl
    | some s =>
      rw [hdb] at hfirst
      simp only at hfirst ⊢
      unfold NodeCache.getNodeFromNodeSerialized at hfirst ⊢
      cases hun : unserializeNode s.mNode with
      | none => rfl
      | some content =>
        rw [hun] at hfirst
        exact absurd hfirst (by simp)
  rw [hstate]
  have hram2 : NodeCache.getNodeInRAM { c with storageReads := c.storageReads + 1 } h = none :=
    hram
  unfold NodeCache.getNodeByHandle at hfirst ⊢
  rw [hram] at hfirst
  rw [hram2]
  simp only at hfirst ⊢
  unfold NodeCache.getNodeFromDataBase at hfirst ⊢
  have hget : NodeCache.getNode { c with storageReads := c.storageReads + 1 } h =
      c.getNode h := rfl
  rw [hget]
  cases hdb : c.getNode h with
  | none => rfl
  | some s =>
    rw [hdb] at hfirst
    simp only at hfirst ⊢
    unfold NodeCache.getNodeFromNodeSerialized at hfirst ⊢
    cases hun : unserializeNode s.mNode with
    | none => rfl
    | some content =>
      rw [hun] at hfirst
      exact absurd hfirst (by simp)

/-- C11 does not hold as stated: for a handle that is neither resident nor stored (here
handle 9, with only handle 7 in the table) the first call reads the Persistent Table and
returns no node, and the second call reads the Persistent Table again. -/
theorem getNodeByHandle_rereads_absent_handle :
    (coldCache.getNodeByHandle some ⟨9⟩).1 = none ∧
    (coldCache.getNodeByHandle some ⟨9⟩).2.storageReads = 1 ∧
    (((coldCache.getNodeByHandle some ⟨9⟩).2).getNodeByHandle some ⟨9⟩).1 = none ∧
    (((coldCache.getNodeByHandle some ⟨9⟩).2).getNodeByHandle some ⟨9⟩).2.storageReads = 2 := by
  decide

/-- C11, amended: for every handle `h`, two calls of `getNodeByHandle(h)` with no mutation in
between return the same result, the identical node instance (same address, same content) or no
node both times; when the first call returns a node, the second call performs no storage
read and leaves the whole state as it was; and when that first call was a cold one (the node
was not resident) it read the Persistent Table once, and the node it loaded, which the warm
call returns again, has the content that the stored record deserializes to. -/
theorem getNodeByHandle_idempotent (unserializeNode : String → Option String) (c : NodeCache)
    (h : NodeHandle) :
    (((c.getNodeByHandle unserializeNode h).2).getNodeByHandle unserializeNode h).1 =
      (c.getNodeByHandle unserializeNode h).1 ∧
    ∀ n : NodeInstance, (c.getNodeByHandle unserializeNode h).1 = some n →
      (((c.getNodeByHandle unserializeNode h).2).getNodeByHandle unserializeNode h).2 =
        (c.getNodeByHandle unserializeNode h).2 ∧
      (((c.getNodeByHandle unserializeNode h).2).getNodeByHandle
          unserializeNode h).2.storageReads =
        (c.getNodeByHandle unserializeNode h).2.storageReads ∧
      (c.getNodeInRAM h = none →
        (c.getNodeByHandle unserializeNode h).2.storageReads = c.storageReads + 1 ∧
        ∃ s, c.getNode h = some s ∧ unserializeNode s.mNode = some n.content) := by
  constructor
  · cases hfirst : (c.getNodeByHandle unserializeNode h).1 with
    | none => exact getNodeByHandle_none_again unserializeNode c h hfirst
    | some n =>
      rw [getNodeByHandle_of_resident unserializeNode _ h n
        (getNodeByHandle_resident_after unserializeNode c h n hfirst)]
  intro n hfirst
  have hres := getNodeByHandle_resident_after unserializeNode c h n hfirst
  have hsecond := getNodeByHandle_of_resident unserializeNode _ h n hres
  refine ⟨by rw [hsecond], by rw [hsecond], ?_⟩
  intro hram
  unfold NodeCache.getNodeByHandle at hfirst ⊢
  rw [hram] at hfirst ⊢
  simp only at hfirst ⊢
  unfold NodeCache.getNodeFromDataBase at hfirst ⊢
  cases hdb : c.getNode h with
  | none =>
    rw [hdb] at hfirst
    exact absurd hfirst (by simp)
  | some s =>
    rw [hdb] at hfirst
    simp only at hfirst ⊢
    unfold NodeCache.getNodeFromNodeSerialized at hfirst ⊢
    cases hun : unserializeNode s.mNode with
    | none =>
      rw [hun] at hfirst
      exact absurd hfirst (by simp)
    | some content =>
      rw [hun] at hfirst
      simp only [Option.some.injEq] at hfirst
      subst hfirst
      exact ⟨rfl, s, rfl, hun⟩

theorem getNodeByHandle_idempotent_witness :
    (coldCache.getNodeByHandle some ⟨7⟩).1 =
      some { handle := ⟨7⟩, address := 0, content := "n7", undecryptable := false } ∧
    (((coldCache.getNodeByHandle some ⟨7⟩).2).getNodeByHandle some ⟨7⟩).2 =
      (coldCache.getNodeByHandle some ⟨7⟩).2 :=
  ⟨by decide,
    ((getNodeByHandle_idempotent some coldCache ⟨7⟩).2
      { handle := ⟨7⟩, address := 0, content := "n7", undecryptable := false }
      (by decide)).1⟩

end Mega
